import Mathlib

/-!
# W^X memory blocks (package `unsafewx`)

A shallow embedding of `internal/unsafewx`: `wx.go` (the `Block` type, its
introspection, `Write`, `WriteTo`), `wx_unix.go` (the POSIX `Alloc`, `Exec`,
`Close`) and `wx_windows.go` (the same three on the Windows backend).

Modelling conventions.

* A `*Block` is an `Option Block`: `none` is the nil pointer.
* Process memory is a total map from addresses to bytes; a Go byte slice is a
  `List Byte` that lives apart from that memory.
* `int` and `uintptr` values of a block (`v`, `n`, `c`, lengths, offsets) are
  unbounded `Nat`/`Int`; every conversion between them in `wx.go` is exact as
  long as the values stay below `2 ^ (bits - 1)`. The page rounding of `Alloc`,
  where overflow is at stake, is computed with explicit wrap-around modulo
  `2 ^ bits` at the width of `int`.
* A Go panic is the `Outcome.panic` result; the state returned next to it is
  the state at the moment of the panic.
* Operating system calls are answered by an `OS` record of functions and are
  written to a `trace`, so that "which calls were made, with which arguments"
  can be stated. The diagnostic logger `logv` is not modelled, except that its
  arguments are evaluated (which dereferences the receiver).
-/

namespace unsafewx

/-! ## Values -/

/-- One byte of memory. -/
abbrev Byte := Fin 256

/-- Process memory, indexed by address. -/
abbrev Mem := Nat → Byte

/-- Go `error` values that occur in the package; `other` stands for any error
produced outside of it (an errno of the operating system, a failure of an
`io.Writer`). -/
inductive Error where
  | CapacityExceeded
  | InvalidClose
  | other (code : Nat)
deriving DecidableEq

/-- Modelled from the spec: `ErrInvalidClose`, the identifier both `Close`
implementations return, has no declaration under `src/`; the one error declared
with that meaning is `InvalidClose` in `wx.go` ("the error returned when
attempting to close a block that is nil or already closed"), the spec's
distinct "invalid close" error. -/
def ErrInvalidClose : Error := Error.InvalidClose

/-- The ways a call can panic. -/
inductive Panic where
  /-- Message `"wx: use of invalid block"` -/
  | invalidBlock
  /-- Message `"wx: attempted to write to executable memory"` -/
  | writeToExecutable
  /-- Message `"wx: attempted to create function without committed memory"` -/
  | funcWithoutMemory
  /-- Message `"wx: attempted to create function in writeable memory"` -/
  | funcInWriteable
  /-- Message `"wx: function pointer out of bounds"` -/
  | funcOutOfBounds
  /-- Message `"wx: cannot allocate %d bytes: negative values are illegal"` -/
  | negativeAlloc
  /-- Go runtime: nil pointer dereference -/
  | nilDereference
  /-- Go runtime: index out of range -/
  | indexOutOfRange
  /-- Go runtime: integer divide by zero -/
  | divideByZero
deriving DecidableEq

/-- Result of a call: it returns a value or it panics. -/
inductive Outcome (α : Type) where
  | ret (a : α)
  | panic (p : Panic)
deriving DecidableEq

/-! ## Machine integers -/

/-- Width of `int` and `uintptr` on the target. -/
inductive WordSize where
  | w32
  | w64
deriving DecidableEq

/-- Number of bits of `int` and `uintptr`. -/
def WordSize.bits : WordSize → Nat
  | .w32 => 32
  | .w64 => 64

/-- Largest value of `int`. -/
def maxInt (w : WordSize) : Int := 2 ^ (w.bits - 1) - 1

/-- Smallest value of `int`. -/
def minInt (w : WordSize) : Int := -(2 ^ (w.bits - 1))

/-- Wrap-around of an integer result to the range of `int` (modulo `2 ^ bits`). -/
def wrapInt (w : WordSize) (x : Int) : Int :=
  (x + 2 ^ (w.bits - 1)) % 2 ^ w.bits - 2 ^ (w.bits - 1)

/-- The conversion `uintptr(x)` of an `int`. -/
def toUintptr (w : WordSize) (x : Int) : Nat :=
  (x % 2 ^ w.bits).toNat

/-! ## The block -/

/-- Go `type Block struct { v uintptr; n, c uintptr; x bool }`. -/
structure Block where
  /-- pointer to data -/
  v : Nat
  /-- len -/
  n : Nat
  /-- cap -/
  c : Nat
  /-- executable flag -/
  x : Bool
deriving DecidableEq

/-- Calls into the operating system, as they are logged in the trace. -/
inductive Syscall where
  | mmap (length : Int)
  | mprotect (addr len : Nat)
  | munmap (addr len : Nat)
  | virtualAlloc (size : Nat)
  | virtualProtect (addr size : Nat)
  | virtualFree (addr size : Nat)
deriving DecidableEq

/-- Answers of the operating system. `mmap` and `virtualAlloc` give the address
of the new region or an error; the others give `none` on success. -/
structure OS where
  getpagesize : Int
  mmap : Int → Except Error Nat
  mprotect : Nat → Nat → Option Error
  munmap : Nat → Nat → Option Error
  virtualAlloc : Nat → Except Error Nat
  virtualProtect : Nat → Nat → Option Error
  virtualFree : Nat → Nat → Option Error

/-- What a method of `*Block` can see and change: the receiver, the memory and
the log of operating system calls. -/
structure State where
  /-- the receiver `b`; `none` is nil -/
  blk : Option Block
  mem : Mem
  trace : List Syscall

/-- The call `runtime.memmove` from a slice into memory: the first `n` bytes of `src`
are stored at addresses `dst, dst+1, ..`. -/
def memmoveTo (mem : Mem) (dst : Nat) (src : List Byte) (n : Nat) : Mem :=
  fun a => if dst ≤ a ∧ a < dst + n then src.getD (a - dst) 0 else mem a

/-- The `k` bytes of memory at addresses `addr, addr+1, .., addr+k-1`. -/
def readMem (mem : Mem) (addr k : Nat) : List Byte :=
  (List.range k).map (fun i => mem (addr + i))

/-- The call `runtime.memmove` from memory into the slice `p`: the first `n` bytes of
`p` become the bytes at addresses `src, src+1, ..`; the rest of `p` stays. -/
def memmoveFrom (p : List Byte) (mem : Mem) (src : Nat) (n : Nat) : List Byte :=
  readMem mem src n ++ p.drop n

/-- Go `make([]byte, n)`. -/
def make (n : Nat) : List Byte := List.replicate n 0

/-! ## `wx.go` -/

/-- Go `func (b *Block) IsValid() bool`. -/
def Block.IsValid (b : Option Block) : Bool :=
  match b with
  | none => false
  | some b => b.v != 0

/-- Go `func (b *Block) Available() int`. -/
def Block.Available (b : Option Block) : Outcome Int :=
  if !Block.IsValid b then .panic .invalidBlock
  else
    match b with
    | none => .panic .nilDereference
    | some b => .ret ((b.c : Int) - (b.n : Int))

/-- Go `func (b *Block) Len() int`. -/
def Block.Len (b : Option Block) : Outcome Int :=
  if !Block.IsValid b then .panic .invalidBlock
  else
    match b with
    | none => .panic .nilDereference
    | some b => .ret (b.n : Int)

/-- Go `func (b *Block) Cursor() uintptr`. -/
def Block.Cursor (b : Option Block) : Outcome Nat :=
  if !Block.IsValid b then .panic .invalidBlock
  else
    match b with
    | none => .panic .nilDereference
    | some b => .ret b.n

/-- Go `func (b *Block) Write(p []byte) (n int, err error)`. -/
def Block.Write (s : State) (p : List Byte) : State × Outcome (Int × Option Error) :=
  match s.blk with
  | none => (s, .panic .nilDereference)
  | some b =>
    if b.x then (s, .panic .writeToExecutable)
    else if p.length = 0 then (s, .ret (0, none))
    else
      match Block.Available (some b) with
      | .panic e => (s, .panic e)
      | .ret c =>
        let n : Int := p.length
        let r : Int × Option Error :=
          if n > c then (c, some Error.CapacityExceeded) else (n, none)
        ({ s with
            mem := memmoveTo s.mem (b.v + b.n) p r.1.toNat
            blk := some { b with n := b.n + r.1.toNat } },
          .ret r)

/-- An `io.Writer` with internal state `σ`: `Write(p)` gives the new state, the
count and the error. -/
structure Writer (σ : Type) where
  Write : σ → List Byte → σ × Int × Option Error

/-- The constant `ps` of `WriteTo`. -/
def WriteTo.ps : Nat := 4096

/-- The `for bn-o > ps` loop of `WriteTo` and the statements after it. `p` is
the reused page buffer, `o` the offset, `n` the count so far, `ws` the state of
the writer. -/
def WriteTo.loop {σ : Type} (w : Writer σ) (mem : Mem) (v bn : Nat)
    (p : List Byte) (o : Nat) (n : Int) (ws : σ) : σ × Int × Option Error :=
  if bn - o > WriteTo.ps then
    let p1 := memmoveFrom p mem (v + o) WriteTo.ps
    let r := w.Write ws p1
    match r.2.2 with
    | some err => (r.1, n + r.2.1, some err)
    | none => WriteTo.loop w mem v bn p1 (o + WriteTo.ps) (n + r.2.1) r.1
  else
    let p1 := memmoveFrom p mem (v + o) (bn - o)
    let r := w.Write ws (p1.take (bn - o))
    (r.1, n + r.2.1, r.2.2)
termination_by bn - o
decreasing_by
  simp only [WriteTo.ps] at *
  omega

/-- Go `func (b *Block) WriteTo(w io.Writer) (n int64, err error)`. The state of
the writer is passed in and out next to the state of the block. -/
def Block.WriteTo {σ : Type} (s : State) (w : Writer σ) (ws : σ) :
    State × σ × Outcome (Int × Option Error) :=
  match Block.Len s.blk with
  | .panic e => (s, ws, .panic e)
  | .ret l =>
    match s.blk with
    | none => (s, ws, .panic .nilDereference)
    | some b =>
      let bn : Nat := l.toNat
      if bn ≤ WriteTo.ps then
        let p := make bn
        if p.length = 0 then (s, ws, .panic .indexOutOfRange)
        else
          let p1 := memmoveFrom p s.mem b.v bn
          let r := w.Write ws p1
          (s, r.1, .ret (r.2.1, r.2.2))
      else
        let p := make WriteTo.ps
        let r := WriteTo.loop w s.mem b.v bn p 0 0 ws
        (s, r.1, .ret (r.2.1, r.2.2))

/-- Go `reflect.Type`, kept abstract: only its identity matters here. -/
abbrev ReflectType := Nat

/-- The function value that `Func` builds: a zero value of the type `typ` whose
code pointer has been set to `ptr`. -/
structure FuncValue where
  typ : ReflectType
  ptr : Nat
deriving DecidableEq

/-- Go `func (b *Block) Func(addr uintptr, typ reflect.Type) interface{}`. -/
def Block.Func (b : Option Block) (addr : Nat) (typ : ReflectType) : Outcome FuncValue :=
  if !Block.IsValid b then .panic .funcWithoutMemory
  else
    match b with
    | none => .panic .nilDereference
    | some b =>
      if !b.x then .panic .funcInWriteable
      else if addr ≥ b.n then .panic .funcOutOfBounds
      else .ret { typ := typ, ptr := b.v + addr }

/-- Go `bytes.Buffer` as an `io.Writer`: it appends what it is given and reports
the whole length, without error. -/
def bytesBuffer : Writer (List Byte) where
  Write := fun buf p => (buf ++ p, (p.length : Int), none)

/-! ## `wx_unix.go` -/

namespace unix

/-- The size `c` that `Alloc` computes and passes to `Mmap`:
`c := (n + ps - 1) / ps * ps; if c == 0 { c = ps }`, in `int` arithmetic. -/
def allocSize (w : WordSize) (ps n : Int) : Int :=
  let c := wrapInt w (wrapInt w (Int.tdiv (wrapInt w (wrapInt w (n + ps) - 1)) ps) * ps)
  if c = 0 then ps else c

/-- Go `func Alloc(n int) (*Block, error)`. -/
def Alloc (w : WordSize) (os : OS) (trace : List Syscall) (n : Int) :
    List Syscall × Outcome (Option Block × Option Error) :=
  if n < 0 then (trace, .panic .negativeAlloc)
  else
    let ps := os.getpagesize
    if ps = 0 then (trace, .panic .divideByZero)
    else
      let c := allocSize w ps n
      match os.mmap c with
      | .error err => (trace ++ [Syscall.mmap c], .ret (none, some err))
      | .ok p =>
        (trace ++ [Syscall.mmap c],
          .ret (some { v := p, n := 0, c := toUintptr w c, x := false }, none))

/-- Go `func (b *Block) Exec() error`. -/
def Exec (os : OS) (s : State) : State × Outcome (Option Error) :=
  match s.blk with
  | none => (s, .panic .nilDereference)
  | some b =>
    let s1 := { s with trace := s.trace ++ [Syscall.mprotect b.v b.c] }
    match os.mprotect b.v b.c with
    | some err => (s1, .ret (some err))
    | none => ({ s1 with blk := some { b with x := true } }, .ret none)

/-- Go `func (b *Block) Close() error`. -/
def Close (os : OS) (s : State) : State × Outcome (Option Error) :=
  if !Block.IsValid s.blk then (s, .ret (some ErrInvalidClose))
  else
    match s.blk with
    | none => (s, .panic .nilDereference)
    | some b =>
      let s1 := { s with trace := s.trace ++ [Syscall.munmap b.v b.c] }
      match os.munmap b.v b.c with
      | some err => (s1, .ret (some err))
      | none => ({ s1 with blk := some { b with v := 0 } }, .ret none)

end unix

/-! ## `wx_windows.go` -/

namespace windows

/-- The size `c` that `Alloc` computes and passes to `VirtualAlloc`:
`c := (n + ps - 1) / ps * ps`, in `int` arithmetic. -/
def allocSize (w : WordSize) (ps n : Int) : Int :=
  wrapInt w (wrapInt w (Int.tdiv (wrapInt w (wrapInt w (n + ps) - 1)) ps) * ps)

/-- Go `func Alloc(n int) (*Block, error)`. -/
def Alloc (w : WordSize) (os : OS) (trace : List Syscall) (n : Int) :
    List Syscall × Outcome (Option Block × Option Error) :=
  if n < 0 then (trace, .panic .negativeAlloc)
  else
    let ps := os.getpagesize
    if ps = 0 then (trace, .panic .divideByZero)
    else
      let c := allocSize w ps n
      match os.virtualAlloc (toUintptr w c) with
      | .error err => (trace ++ [Syscall.virtualAlloc (toUintptr w c)], .ret (none, some err))
      | .ok p =>
        (trace ++ [Syscall.virtualAlloc (toUintptr w c)],
          .ret (some { v := p, n := 0, c := toUintptr w c, x := false }, none))

/-- Go `func (b *Block) Exec() error`. -/
def Exec (os : OS) (s : State) : State × Outcome (Option Error) :=
  match s.blk with
  | none => (s, .panic .nilDereference)
  | some b =>
    let s1 := { s with trace := s.trace ++ [Syscall.virtualProtect b.v b.c] }
    match os.virtualProtect b.v b.c with
    | some err => (s1, .ret (some err))
    | none => ({ s1 with blk := some { b with x := true } }, .ret none)

/-- Go `func (b *Block) Close() error`. -/
def Close (os : OS) (s : State) : State × Outcome (Option Error) :=
  if !Block.IsValid s.blk then (s, .ret (some ErrInvalidClose))
  else
    match s.blk with
    | none => (s, .panic .nilDereference)
    | some b =>
      let s1 := { s with trace := s.trace ++ [Syscall.virtualFree b.v 0] }
      match os.virtualFree b.v 0 with
      | some err => (s1, .ret (some err))
      | none => ({ s1 with blk := some { b with v := 0 } }, .ret none)

end windows

/-! ## Specification side -/

/-- Specification side, `roundUpToPage`: `m` rounded up to the next whole multiple of the
page size `ps`. -/
def roundUpToPage (ps m : Int) : Int := (m + ps - 1) / ps * ps

/-! ## Both backends at once -/

/-- The two allocator backends: `wx_unix.go` and `wx_windows.go`. -/
inductive Backend where
  | posix
  | windows
deriving DecidableEq

/-- Method `Exec` of the chosen backend. -/
def Backend.Exec : Backend → OS → State → State × Outcome (Option Error)
  | .posix => unix.Exec
  | .windows => windows.Exec

/-- Method `Close` of the chosen backend. -/
def Backend.Close : Backend → OS → State → State × Outcome (Option Error)
  | .posix => unix.Close
  | .windows => windows.Close

/-- The protection change that `Exec` requests for the block `b`. -/
def Backend.protectCall : Backend → Block → Syscall
  | .posix, b => Syscall.mprotect b.v b.c
  | .windows, b => Syscall.virtualProtect b.v b.c

/-- The answer of the operating system to that protection change. -/
def Backend.protect : Backend → OS → Block → Option Error
  | .posix, os, b => os.mprotect b.v b.c
  | .windows, os, b => os.virtualProtect b.v b.c

/-- The release that `Close` requests for the block `b`. -/
def Backend.releaseCall : Backend → Block → Syscall
  | .posix, b => Syscall.munmap b.v b.c
  | .windows, b => Syscall.virtualFree b.v 0

/-- The answer of the operating system to that release. -/
def Backend.release : Backend → OS → Block → Option Error
  | .posix, os, b => os.munmap b.v b.c
  | .windows, os, b => os.virtualFree b.v 0

/-- Further `Close` calls in a row on the same receiver, one for each entry of
`oss` (the operating system as it answers during that call); the results are
collected in order. -/
def Backend.CloseAgain (be : Backend) : List OS → State → State × List (Outcome (Option Error))
  | [], s => (s, [])
  | os :: rest, s =>
    ((Backend.CloseAgain be rest (be.Close os s).1).1,
      (be.Close os s).2 :: (Backend.CloseAgain be rest (be.Close os s).1).2)

/-- `Alloc` of the chosen backend. -/
def Backend.Alloc : Backend → WordSize → OS → List Syscall → Int →
    List Syscall × Outcome (Option Block × Option Error)
  | .posix => unix.Alloc
  | .windows => windows.Alloc

/-- One call on a block: a method of `*Block` together with its arguments (for
`WriteTo` the writer and its state, for `Exec` and `Close` the operating system
as it answers during the call). -/
inductive Op : Type 1 where
  | write (p : List Byte)
  | writeTo (σ : Type) (w : Writer σ) (ws : σ)
  | exec (os : OS)
  | func (addr : Nat) (typ : ReflectType)
  | close (os : OS)
  | isValid
  | available
  | len
  | cursor

/-- The state after one call; what the call returns is dropped, and a call that
panics leaves behind the state it had reached. `Func` and the introspection
methods only read the receiver. -/
def Backend.step (be : Backend) (s : State) : Op → State
  | .write p => (Block.Write s p).1
  | .writeTo _ w ws => (Block.WriteTo s w ws).1
  | .exec os => (be.Exec os s).1
  | .func _ _ => s
  | .close os => (be.Close os s).1
  | .isValid => s
  | .available => s
  | .len => s
  | .cursor => s

/-- The state after a finite sequence of calls, in order. -/
def Backend.run (be : Backend) (s : State) (ops : List Op) : State :=
  ops.foldl be.step s

/-- A writer that behaves as `w` and keeps, next to the state of `w`, the list
of the slices it has been called with, in order. -/
def recording {σ : Type} (w : Writer σ) : Writer (σ × List (List Byte)) where
  Write := fun st p =>
    (((w.Write st.1 p).1, st.2 ++ [p]), (w.Write st.1 p).2.1, (w.Write st.1 p).2.2)

/-- Go `io.Discard` as an `io.Writer`: it accepts every slice in full and keeps
nothing. -/
def discard : Writer Unit where
  Write := fun _ p => ((), (p.length : Int), none)

/-- One call of a writer as seen by its caller: the slice passed in, and the
count and the error that came back. -/
structure WriteCall where
  arg : List Byte
  n : Int
  err : Option Error
deriving DecidableEq

/-- A writer that behaves as `w` and keeps, next to the state of `w`, the list
of the calls made to it, in order, each with what it returned. -/
def tracing {σ : Type} (w : Writer σ) : Writer (σ × List WriteCall) where
  Write := fun st p =>
    (((w.Write st.1 p).1,
        st.2 ++ [{ arg := p, n := (w.Write st.1 p).2.1, err := (w.Write st.1 p).2.2 }]),
      (w.Write st.1 p).2.1, (w.Write st.1 p).2.2)

/-- A writer that takes the first slice in full and from the second call on
reports ten bytes and an error; its state counts the calls. -/
def flakyWriter : Writer Nat where
  Write := fun k p =>
    (k + 1, if k = 0 then (p.length : Int) else 10,
      if k = 0 then none else some (Error.other 5))

/-- One `Write` call for each slice of `pieces`, in order, on the same receiver;
the results are collected in order. -/
def Block.WriteEach (s : State) : List (List Byte) → State × List (Outcome (Int × Option Error))
  | [] => (s, [])
  | p :: rest =>
    ((Block.WriteEach (Block.Write s p).1 rest).1,
      (Block.Write s p).2 :: (Block.WriteEach (Block.Write s p).1 rest).2)

/-- The state a caller holds after `Alloc`: the returned pointer as receiver of
the calls that follow (nil when `Alloc` failed or panicked). -/
def unix.allocState (w : WordSize) (os : OS) (mem : Mem) (trace : List Syscall) (n : Int) :
    State :=
  match unix.Alloc w os trace n with
  | (tr, .ret (b, _)) => { blk := b, mem := mem, trace := tr }
  | (tr, .panic _) => { blk := none, mem := mem, trace := tr }

/-! ## Concrete inputs -/

/-- An operating system with 4096-byte pages on which every call succeeds; new
regions are placed at address `0x10000`. -/
def okOS : OS where
  getpagesize := 4096
  mmap := fun _ => .ok 65536
  mprotect := fun _ _ => none
  munmap := fun _ _ => none
  virtualAlloc := fun _ => .ok 65536
  virtualProtect := fun _ _ => none
  virtualFree := fun _ _ => none

/-- An operating system on which protection changes and releases fail. -/
def failingOS : OS where
  getpagesize := 4096
  mmap := fun _ => .ok 65536
  mprotect := fun _ _ => some (Error.other 13)
  munmap := fun _ _ => some (Error.other 22)
  virtualAlloc := fun _ => .ok 65536
  virtualProtect := fun _ _ => some (Error.other 13)
  virtualFree := fun _ _ => some (Error.other 22)

/-- An operating system that, as the wrappers of `Mmap` and `VirtualAlloc` do,
turns down a request for a region whose length is not positive. -/
def strictOS : OS where
  getpagesize := 4096
  mmap := fun len => if len ≤ 0 then .error (Error.other 22) else .ok 65536
  mprotect := fun _ _ => none
  munmap := fun _ _ => none
  virtualAlloc := fun size => if size = 0 then .error (Error.other 87) else .ok 65536
  virtualProtect := fun _ _ => none
  virtualFree := fun _ _ => none

/-- Memory filled with zero bytes. -/
def zeroMem : Mem := fun _ => 0

/-- A one-page block at `0x10000` with nothing written. -/
def freshBlock : Block := { v := 65536, n := 0, c := 4096, x := false }

/-- The state around `freshBlock` before any call. -/
def freshState : State := { blk := some freshBlock, mem := zeroMem, trace := [] }

/-- A one-page block at `0x10000` holding three written bytes. -/
def writtenBlock : Block := { v := 65536, n := 3, c := 4096, x := false }

/-- The state around `writtenBlock`. -/
def writtenState : State := { blk := some writtenBlock, mem := zeroMem, trace := [] }

/-- A closed block: `freshBlock` after a successful `Close`. -/
def closedBlock : Block := { v := 0, n := 0, c := 4096, x := false }

/-- The state around `closedBlock`. -/
def closedState : State := { blk := some closedBlock, mem := zeroMem, trace := [] }

/-- A three-page block at `0x10000` with 8193 bytes written. -/
def bigBlock : Block := { v := 65536, n := 8193, c := 12288, x := false }

/-- The state around `bigBlock`. -/
def bigState : State := { blk := some bigBlock, mem := zeroMem, trace := [] }

/-- The block that `Alloc(5000)` returns on `okOS`: two pages at `0x10000`. -/
def twoPageBlock : Block := { v := 65536, n := 0, c := 8192, x := false }

/-- The state right after that `Alloc(5000)`. -/
def twoPageState : State :=
  { blk := some twoPageBlock, mem := zeroMem, trace := [Syscall.mmap 8192] }

/-- A short sequence of calls: a write, an `Exec`, a write attempt, `Len` and a
`Close`. -/
def sampleOps : List Op :=
  [Op.write [1, 2], Op.exec okOS, Op.write [3], Op.len, Op.close okOS]

/-- A one-page block with two bytes of room left. -/
def nearlyFullBlock : Block := { v := 65536, n := 4094, c := 4096, x := false }

/-- The state around `nearlyFullBlock`. -/
def nearlyFullState : State := { blk := some nearlyFullBlock, mem := zeroMem, trace := [] }

/-! ## Machine integer lemmas -/

theorem wrapInt_of_inRange (w : WordSize) (x : Int) (hlo : minInt w ≤ x) (hhi : x ≤ maxInt w) :
    wrapInt w x = x := by
  cases w <;> simp only [wrapInt, minInt, maxInt, WordSize.bits] at * <;> omega

theorem wrapInt_sub_one (w : WordSize) (x : Int) :
    wrapInt w (wrapInt w x - 1) = wrapInt w (x - 1) := by
  cases w <;> simp only [wrapInt, WordSize.bits] <;> omega

theorem toUintptr_of_inRange (w : WordSize) (x : Int) (hlo : 0 ≤ x) (hhi : x ≤ maxInt w + 1) :
    (toUintptr w x : Int) = x := by
  cases w <;> simp only [toUintptr, maxInt, WordSize.bits] at * <;> omega

theorem maxInt_nonneg (w : WordSize) : 0 ≤ maxInt w := by
  cases w <;> simp [maxInt, WordSize.bits]

theorem minInt_nonpos (w : WordSize) : minInt w ≤ 0 := by
  cases w <;> simp [minInt, WordSize.bits]

/-- Without overflow the size computed by the POSIX `Alloc` is the quotient
formula over the integers, with zero replaced by one page. -/
theorem unix.allocSize_eq (w : WordSize) (ps n : Int) (hps : 0 < ps) (hn : 0 ≤ n)
    (hov : n + ps - 1 ≤ maxInt w) :
    unix.allocSize w ps n =
      if (n + ps - 1) / ps * ps = 0 then ps else (n + ps - 1) / ps * ps := by
  have hx0 : 0 ≤ n + ps - 1 := by omega
  have hmin := minInt_nonpos w
  have hq0 : 0 ≤ (n + ps - 1) / ps := Int.ediv_nonneg hx0 (le_of_lt hps)
  have hmul : (n + ps - 1) / ps * ps ≤ n + ps - 1 := Int.ediv_mul_le _ (ne_of_gt hps)
  have hqle : (n + ps - 1) / ps ≤ n + ps - 1 := by
    have : (n + ps - 1) / ps * 1 ≤ (n + ps - 1) / ps * ps :=
      mul_le_mul_of_nonneg_left (by omega) hq0
    omega
  have hc0 : 0 ≤ (n + ps - 1) / ps * ps := mul_nonneg hq0 (le_of_lt hps)
  have e1 : wrapInt w (wrapInt w (n + ps) - 1) = n + ps - 1 := by
    rw [wrapInt_sub_one]
    exact wrapInt_of_inRange w _ (by omega) hov
  have e2 : Int.tdiv (n + ps - 1) ps = (n + ps - 1) / ps :=
    Int.tdiv_eq_ediv hx0 (le_of_lt hps)
  have e3 : wrapInt w ((n + ps - 1) / ps) = (n + ps - 1) / ps :=
    wrapInt_of_inRange w _ (by omega) (by omega)
  have e4 : wrapInt w ((n + ps - 1) / ps * ps) = (n + ps - 1) / ps * ps :=
    wrapInt_of_inRange w _ (by omega) (by omega)
  simp only [unix.allocSize, e1, e2, e3, e4]

/-- Without overflow the size computed by the POSIX `Alloc` is the smallest
positive multiple of the page size that is at least `n`. -/
theorem unix.allocSize_spec (w : WordSize) (ps n : Int) (hps : 0 < ps) (hn : 0 ≤ n)
    (hov : n + ps - 1 ≤ maxInt w) :
    0 < unix.allocSize w ps n ∧ unix.allocSize w ps n ≤ maxInt w + 1 ∧
      ps ∣ unix.allocSize w ps n ∧ n ≤ unix.allocSize w ps n ∧
      (∀ m : Int, 0 < m → ps ∣ m → n ≤ m → unix.allocSize w ps n ≤ m) ∧
      (n ≤ ps → unix.allocSize w ps n = ps) ∧
      unix.allocSize w ps n = roundUpToPage ps (max n 1) := by
  rw [unix.allocSize_eq w ps n hps hn hov]
  have hx0 : 0 ≤ n + ps - 1 := by omega
  have hq0 : 0 ≤ (n + ps - 1) / ps := Int.ediv_nonneg hx0 (le_of_lt hps)
  have hmul : (n + ps - 1) / ps * ps ≤ n + ps - 1 := Int.ediv_mul_le _ (ne_of_gt hps)
  have hlt : n + ps - 1 < ((n + ps - 1) / ps + 1) * ps :=
    Int.lt_ediv_add_one_mul_self _ hps
  have hexp : ((n + ps - 1) / ps + 1) * ps = (n + ps - 1) / ps * ps + ps := by ring
  have hc0 : 0 ≤ (n + ps - 1) / ps * ps := mul_nonneg hq0 (le_of_lt hps)
  have hmin : ∀ m : Int, 0 < m → ps ∣ m → n ≤ m → (n + ps - 1) / ps * ps ≤ m := by
    intro m _ hdvd hnm
    obtain ⟨k, rfl⟩ := hdvd
    have hk : (n + ps - 1) / ps < k + 1 := by
      apply Int.ediv_lt_of_lt_mul hps
      have : (k + 1) * ps = ps * k + ps := by ring
      omega
    have : (n + ps - 1) / ps * ps ≤ k * ps :=
      mul_le_mul_of_nonneg_right (by omega) (le_of_lt hps)
    have hcomm : k * ps = ps * k := by ring
    omega
  have hmax0 : n = 0 → roundUpToPage ps (max n 1) = ps := by
    intro h0
    subst h0
    have h1 : max (0 : Int) 1 + ps - 1 = ps := by
      rw [max_eq_right (by omega : (0 : Int) ≤ 1)]
      omega
    rw [roundUpToPage, h1, Int.ediv_self (ne_of_gt hps), one_mul]
  have hmax1 : 0 < n → roundUpToPage ps (max n 1) = (n + ps - 1) / ps * ps := by
    intro h1
    have : max n 1 = n := max_eq_left (by omega)
    simp [roundUpToPage, this]
  by_cases hz : (n + ps - 1) / ps * ps = 0
  · have hn0 : n = 0 := by omega
    simp only [hz, if_true]
    refine ⟨hps, by omega, dvd_refl ps, by omega, ?_, fun _ => trivial, (hmax0 hn0).symm⟩
    intro m hm hdvd _
    exact Int.le_of_dvd hm hdvd
  · simp only [hz, if_false]
    have hcpos : 0 < (n + ps - 1) / ps * ps := by omega
    refine ⟨hcpos, by omega, Dvd.intro_left _ rfl, by omega, hmin, ?_, ?_⟩
    · intro hle
      have h1 : ps ≤ (n + ps - 1) / ps * ps := Int.le_of_dvd hcpos (Dvd.intro_left _ rfl)
      have h2 := hmin ps hps (dvd_refl ps) hle
      omega
    · have hnpos : 0 < n := by
        by_contra hcon
        have hn0 : n = 0 := by omega
        subst hn0
        have : (0 + ps - 1) / ps = 0 := Int.ediv_eq_zero_of_lt (by omega) (by omega)
        rw [this] at hz
        simp at hz
      exact (hmax1 hnpos).symm

/-! ## Claims -/

/-- C1. POSIX backend: for every page size `ps > 0` and every `n ≥ 0` for which
`n + ps - 1` does not overflow `int`, when the mapping succeeds (the operating
system hands back a non-null address) `Alloc(n)` makes exactly one `Mmap` call
and returns a valid, non-executable block with `Len() == 0` whose
`Available() + Len()` is `roundUpToPage(max(n, 1))`: a positive multiple of `ps`
that is at least `n`, the smallest such, and exactly `ps` whenever `n ≤ ps`. -/
theorem C1_alloc_capacity (w : WordSize) (os : OS) (tr : List Syscall) (n : Int) (p : Nat)
    (hps : 0 < os.getpagesize) (hn : 0 ≤ n) (hov : n + os.getpagesize - 1 ≤ maxInt w)
    (hmap : os.mmap (unix.allocSize w os.getpagesize n) = .ok p) (hp : p ≠ 0) :
    ∃ (b : Block) (a l : Int),
      unix.Alloc w os tr n =
        (tr ++ [Syscall.mmap (unix.allocSize w os.getpagesize n)], .ret (some b, none)) ∧
      Block.IsValid (some b) = true ∧ b.x = false ∧
      Block.Len (some b) = .ret l ∧ l = 0 ∧
      Block.Available (some b) = .ret a ∧
      a + l = roundUpToPage os.getpagesize (max n 1) ∧
      0 < a + l ∧ os.getpagesize ∣ a + l ∧ n ≤ a + l ∧
      (∀ m : Int, 0 < m → os.getpagesize ∣ m → n ≤ m → a + l ≤ m) ∧
      (n ≤ os.getpagesize → a + l = os.getpagesize) := by
  obtain ⟨hpos, hle, hdvd, hge, hmin, hone, hround⟩ :=
    unix.allocSize_spec w os.getpagesize n hps hn hov
  have hcast := toUintptr_of_inRange w _ (le_of_lt hpos) hle
  refine ⟨{ v := p, n := 0, c := toUintptr w (unix.allocSize w os.getpagesize n), x := false },
    unix.allocSize w os.getpagesize n, 0, ?_, ?_, rfl, ?_, rfl, ?_, ?_, ?_, ?_, ?_, ?_, ?_⟩
  · have hn' : ¬ n < 0 := by omega
    have hps' : os.getpagesize ≠ 0 := ne_of_gt hps
    simp [unix.Alloc, hn', hps', hmap]
  · simp [Block.IsValid, hp]
  · simp [Block.Len, Block.IsValid, hp]
  · simp [Block.Available, Block.IsValid, hp, hcast]
  · simpa using hround
  · simpa using hpos
  · simpa using hdvd
  · simpa using hge
  · simpa using hmin
  · simpa using hone

/-- What `Write` does to a valid writeable block when `p` is not empty: it
copies `min(len(p), c - n)` bytes and advances `n` by that amount. -/
theorem Block.Write_eq (s : State) (b : Block) (p : List Byte)
    (hb : s.blk = some b) (hv : b.v ≠ 0) (hx : b.x = false) (hp : p.length ≠ 0) :
    Block.Write s p =
      if (p.length : Int) > (b.c : Int) - (b.n : Int) then
        ({ s with
            mem := memmoveTo s.mem (b.v + b.n) p ((b.c : Int) - (b.n : Int)).toNat
            blk := some { b with n := b.n + ((b.c : Int) - (b.n : Int)).toNat } },
          .ret ((b.c : Int) - (b.n : Int), some Error.CapacityExceeded))
      else
        ({ s with
            mem := memmoveTo s.mem (b.v + b.n) p p.length
            blk := some { b with n := b.n + p.length } },
          .ret ((p.length : Int), none)) := by
  have hav : Block.Available (some b) = .ret ((b.c : Int) - (b.n : Int)) := by
    simp [Block.Available, Block.IsValid, hv]
  simp only [Block.Write, hb, hx, hp, hav, if_false, Bool.false_eq_true]
  split_ifs <;> rfl

theorem memmoveTo_inside (mem : Mem) (dst : Nat) (src : List Byte) (n i : Nat)
    (hi : i < n) (hlen : i < src.length) :
    memmoveTo mem dst src n (dst + i) = src.get ⟨i, hlen⟩ := by
  have h1 : dst ≤ dst + i ∧ dst + i < dst + n := ⟨by omega, by omega⟩
  simp only [memmoveTo, h1, and_self, if_true, Nat.add_sub_cancel_left]
  simp [List.getD, List.getElem?_eq_getElem hlen]

theorem memmoveTo_outside (mem : Mem) (dst : Nat) (src : List Byte) (n addr : Nat)
    (h : addr < dst ∨ dst + n ≤ addr) :
    memmoveTo mem dst src n addr = mem addr := by
  have h1 : ¬ (dst ≤ addr ∧ addr < dst + n) := by omega
  simp only [memmoveTo, h1, if_false]

/-- C2. For every valid, non-executable block and every byte slice `p` with
`len(p) ≤ Available()`, `Write(p)` returns `(len(p), nil)`, `Len()` grows by
exactly `len(p)`, the memory at offsets `[oldLen, oldLen + len(p))` from the
base equals `p` in order, and the base, the capacity, the executable flag and
every byte outside that range are unchanged; no operating system call is made. -/
theorem C2_write_within_capacity (s : State) (b : Block) (p : List Byte) (a : Int)
    (hb : s.blk = some b) (hv : Block.IsValid s.blk = true) (hx : b.x = false)
    (ha : Block.Available s.blk = .ret a) (hfit : (p.length : Int) ≤ a) :
    (Block.Write s p).2 = .ret ((p.length : Int), none) ∧
    (Block.Write s p).1.blk = some { b with n := b.n + p.length } ∧
    Block.Len (Block.Write s p).1.blk = .ret ((b.n : Int) + (p.length : Int)) ∧
    (∀ (i : Nat) (h : i < p.length),
      (Block.Write s p).1.mem (b.v + b.n + i) = p.get ⟨i, h⟩) ∧
    (∀ addr : Nat, addr < b.v + b.n ∨ b.v + b.n + p.length ≤ addr →
      (Block.Write s p).1.mem addr = s.mem addr) ∧
    (Block.Write s p).1.trace = s.trace := by
  have hv' : b.v ≠ 0 := by simpa [hb, Block.IsValid] using hv
  have ha' : a = (b.c : Int) - (b.n : Int) := by
    simp [hb, Block.Available, Block.IsValid, hv'] at ha
    exact ha.symm
  by_cases hp : p.length = 0
  · have hnil : p = [] := List.length_eq_zero.mp hp
    subst hnil
    have hbb : ({ b with n := b.n + ([] : List Byte).length } : Block) = b := rfl
    rw [hbb]
    simp [Block.Write, hb, hx, Block.Len, Block.IsValid, hv']
  · have hle : ¬ ((p.length : Int) > (b.c : Int) - (b.n : Int)) := by omega
    rw [Block.Write_eq s b p hb hv' hx hp, if_neg hle]
    refine ⟨rfl, rfl, ?_, ?_, ?_, rfl⟩
    · simp [Block.Len, Block.IsValid, hv']
    · intro i h
      exact memmoveTo_inside s.mem (b.v + b.n) p p.length i h h
    · intro addr h
      exact memmoveTo_outside s.mem (b.v + b.n) p p.length addr h

/-- C3. For every valid, non-executable block that satisfies the data model
invariant `written ≤ capacity`, with `a = Available()`, and every byte slice `p`
with `len(p) > a`, `Write(p)` returns `(a, CapacityExceeded)`, stores exactly the
first `a` bytes of `p` at offsets `[oldLen, capacity)`, leaves `Len() == capacity`
and `Available() == 0`, and changes no byte at or beyond offset `capacity` (nor
any byte of the already written prefix). -/
theorem C3_write_capacity_exceeded (s : State) (b : Block) (p : List Byte) (a : Int)
    (hb : s.blk = some b) (hv : Block.IsValid s.blk = true) (hx : b.x = false)
    (hinv : b.n ≤ b.c)
    (ha : Block.Available s.blk = .ret a) (hbig : a < (p.length : Int)) :
    (Block.Write s p).2 = .ret (a, some Error.CapacityExceeded) ∧
    (Block.Write s p).1.blk = some { b with n := b.c } ∧
    Block.Len (Block.Write s p).1.blk = .ret (b.c : Int) ∧
    Block.Available (Block.Write s p).1.blk = .ret 0 ∧
    (∀ (i : Nat) (h : i < p.length), (i : Int) < a →
      (Block.Write s p).1.mem (b.v + b.n + i) = p.get ⟨i, h⟩) ∧
    (∀ addr : Nat, addr < b.v + b.n ∨ b.v + b.c ≤ addr →
      (Block.Write s p).1.mem addr = s.mem addr) := by
  have hv' : b.v ≠ 0 := by simpa [hb, Block.IsValid] using hv
  have ha' : a = (b.c : Int) - (b.n : Int) := by
    simp [hb, Block.Available, Block.IsValid, hv'] at ha
    exact ha.symm
  have hp : p.length ≠ 0 := by omega
  have hgt : (p.length : Int) > (b.c : Int) - (b.n : Int) := by omega
  have hnat : ((b.c : Int) - (b.n : Int)).toNat = b.c - b.n := by omega
  have hsum : b.n + (b.c - b.n) = b.c := by omega
  rw [Block.Write_eq s b p hb hv' hx hp, if_pos hgt, hnat, hsum]
  refine ⟨by rw [ha'], rfl, ?_, ?_, ?_, ?_⟩
  · simp [Block.Len, Block.IsValid, hv']
  · simp [Block.Available, Block.IsValid, hv']
  · intro i h hia
    exact memmoveTo_inside s.mem (b.v + b.n) p (b.c - b.n) i (by omega) h
  · intro addr h
    exact memmoveTo_outside s.mem (b.v + b.n) p (b.c - b.n) addr (by omega)

/-- Witness of C1: five bytes on a 64-bit target with 4096-byte pages. -/
theorem C1_alloc_capacity_witness :
    ∃ (b : Block) (a l : Int),
      unix.Alloc .w64 okOS [] 5 =
        ([] ++ [Syscall.mmap (unix.allocSize .w64 okOS.getpagesize 5)], .ret (some b, none)) ∧
      Block.IsValid (some b) = true ∧ b.x = false ∧
      Block.Len (some b) = .ret l ∧ l = 0 ∧
      Block.Available (some b) = .ret a ∧
      a + l = roundUpToPage okOS.getpagesize (max 5 1) ∧
      0 < a + l ∧ okOS.getpagesize ∣ a + l ∧ 5 ≤ a + l ∧
      (∀ m : Int, 0 < m → okOS.getpagesize ∣ m → 5 ≤ m → a + l ≤ m) ∧
      (5 ≤ okOS.getpagesize → a + l = okOS.getpagesize) :=
  C1_alloc_capacity .w64 okOS [] 5 65536 (by decide) (by decide) (by decide) rfl (by decide)

/-- Witness of C2: three bytes into the fresh one-page block. -/
theorem C2_write_within_capacity_witness :
    (Block.Write freshState [1, 2, 3]).2 = .ret ((([1, 2, 3] : List Byte).length : Int), none) ∧
    (Block.Write freshState [1, 2, 3]).1.blk =
      some { freshBlock with n := freshBlock.n + ([1, 2, 3] : List Byte).length } ∧
    Block.Len (Block.Write freshState [1, 2, 3]).1.blk =
      .ret ((freshBlock.n : Int) + (([1, 2, 3] : List Byte).length : Int)) ∧
    (∀ (i : Nat) (h : i < ([1, 2, 3] : List Byte).length),
      (Block.Write freshState [1, 2, 3]).1.mem (freshBlock.v + freshBlock.n + i) =
        ([1, 2, 3] : List Byte).get ⟨i, h⟩) ∧
    (∀ addr : Nat,
      addr < freshBlock.v + freshBlock.n ∨
        freshBlock.v + freshBlock.n + ([1, 2, 3] : List Byte).length ≤ addr →
      (Block.Write freshState [1, 2, 3]).1.mem addr = freshState.mem addr) ∧
    (Block.Write freshState [1, 2, 3]).1.trace = freshState.trace :=
  C2_write_within_capacity freshState freshBlock [1, 2, 3] 4096 rfl rfl rfl rfl (by decide)

/-- Witness of C3: three bytes into a block with room for two. -/
theorem C3_write_capacity_exceeded_witness :
    (Block.Write nearlyFullState [1, 2, 3]).2 = .ret (2, some Error.CapacityExceeded) ∧
    (Block.Write nearlyFullState [1, 2, 3]).1.blk =
      some { nearlyFullBlock with n := nearlyFullBlock.c } ∧
    Block.Len (Block.Write nearlyFullState [1, 2, 3]).1.blk = .ret (nearlyFullBlock.c : Int) ∧
    Block.Available (Block.Write nearlyFullState [1, 2, 3]).1.blk = .ret 0 ∧
    (∀ (i : Nat) (h : i < ([1, 2, 3] : List Byte).length), (i : Int) < 2 →
      (Block.Write nearlyFullState [1, 2, 3]).1.mem (nearlyFullBlock.v + nearlyFullBlock.n + i) =
        ([1, 2, 3] : List Byte).get ⟨i, h⟩) ∧
    (∀ addr : Nat,
      addr < nearlyFullBlock.v + nearlyFullBlock.n ∨
        nearlyFullBlock.v + nearlyFullBlock.c ≤ addr →
      (Block.Write nearlyFullState [1, 2, 3]).1.mem addr = nearlyFullState.mem addr) :=
  C3_write_capacity_exceeded nearlyFullState nearlyFullBlock [1, 2, 3] 2 rfl rfl rfl
    (by decide) rfl (by decide)

/-! ### Export -/

theorem readMem_length (mem : Mem) (addr k : Nat) : (readMem mem addr k).length = k := by
  simp [readMem]

theorem readMem_add (mem : Mem) (addr j k : Nat) :
    readMem mem addr (j + k) = readMem mem addr j ++ readMem mem (addr + j) k := by
  simp only [readMem, List.range_add, List.map_append, List.map_map]
  congr 1
  apply List.map_congr_left
  intro i _
  simp [Nat.add_assoc]

theorem memmoveFrom_whole (p : List Byte) (mem : Mem) (src n : Nat) (hp : p.length = n) :
    memmoveFrom p mem src n = readMem mem src n := by
  simp [memmoveFrom, List.drop_of_length_le (le_of_eq hp)]

theorem memmoveFrom_length (p : List Byte) (mem : Mem) (src n : Nat) (hp : n ≤ p.length) :
    (memmoveFrom p mem src n).length = p.length := by
  simp [memmoveFrom, readMem_length]
  omega

theorem take_memmoveFrom (p : List Byte) (mem : Mem) (src n : Nat) :
    (memmoveFrom p mem src n).take n = readMem mem src n := by
  simp [memmoveFrom, List.take_left' (readMem_length mem src n)]

/-- Reading back what `memmoveTo` has just stored gives the stored bytes. -/
theorem readMem_memmoveTo (mem : Mem) (dst : Nat) (p : List Byte) :
    readMem (memmoveTo mem dst p p.length) dst p.length = p := by
  apply List.ext_getElem
  · simp [readMem_length]
  · intro i h1 h2
    simp only [readMem, List.getElem_map, List.getElem_range]
    exact memmoveTo_inside mem dst p p.length i h2 h2

theorem bytesBuffer_Write (buf p : List Byte) :
    bytesBuffer.Write buf p = (buf ++ p, (p.length : Int), none) := rfl

/-- The loop of `WriteTo` against a `bytes.Buffer`: everything from offset `o`
to `bn` is appended to the buffer, and the count grows by `bn - o`. -/
theorem WriteTo.loop_bytesBuffer (mem : Mem) (v bn : Nat) :
    ∀ (k : Nat) (p : List Byte) (o : Nat) (n : Int) (buf : List Byte),
      bn - o = k → p.length = WriteTo.ps → o ≤ bn →
      WriteTo.loop bytesBuffer mem v bn p o n buf =
        (buf ++ readMem mem (v + o) (bn - o), n + ((bn - o : Nat) : Int), none) := by
  intro k
  induction k using Nat.strong_induction_on with
  | _ k ih =>
    intro p o n buf hk hp ho
    have hps : WriteTo.ps = 4096 := rfl
    rw [WriteTo.loop]
    by_cases hgt : bn - o > WriteTo.ps
    · have hp1 : memmoveFrom p mem (v + o) WriteTo.ps = readMem mem (v + o) WriteTo.ps :=
        memmoveFrom_whole p mem (v + o) WriteTo.ps hp
      have hrec := ih (bn - (o + WriteTo.ps)) (by omega) (readMem mem (v + o) WriteTo.ps)
        (o + WriteTo.ps) (n + (WriteTo.ps : Int)) (buf ++ readMem mem (v + o) WriteTo.ps)
        rfl (readMem_length _ _ _) (by omega)
      have hsplit : bn - o = WriteTo.ps + (bn - (o + WriteTo.ps)) := by omega
      simp only [hgt, if_true, hp1, bytesBuffer_Write, readMem_length]
      rw [hrec]
      rw [hsplit, readMem_add]
      simp only [List.append_assoc, Nat.add_assoc, Prod.mk.injEq, true_and, and_true]
      push_cast
      omega
    · simp only [hgt, if_false, take_memmoveFrom, bytesBuffer_Write, readMem_length]

/-- Export of a valid block with at least one byte written into a
`bytes.Buffer`: the written bytes are appended, the count is `Len()`, there is
no error and the block is as before. -/
theorem Block.WriteTo_bytesBuffer (s : State) (b : Block) (buf : List Byte)
    (hb : s.blk = some b) (hv : b.v ≠ 0) (hn : 0 < b.n) :
    Block.WriteTo s bytesBuffer buf =
      (s, buf ++ readMem s.mem b.v b.n, .ret ((b.n : Int), none)) := by
  have hlen : Block.Len (some b) = .ret (b.n : Int) := by
    simp [Block.Len, Block.IsValid, hv]
  simp only [Block.WriteTo, hb, hlen, Int.toNat_ofNat]
  by_cases hsmall : b.n ≤ WriteTo.ps
  · have hne : (make b.n).length ≠ 0 := by simp [make]; omega
    have hwhole : memmoveFrom (make b.n) s.mem b.v b.n = readMem s.mem b.v b.n :=
      memmoveFrom_whole _ _ _ _ (by simp [make])
    simp only [hsmall, if_true, hne, if_false, hwhole, bytesBuffer_Write, readMem_length]
  · have hloop := WriteTo.loop_bytesBuffer s.mem b.v b.n (b.n - 0) (make WriteTo.ps) 0 0 buf
      rfl (by simp [make]) (Nat.zero_le _)
    simp only [hsmall, if_false, hloop]
    simp

/-- C4. Round trip: for every non-empty byte slice `p`, after `Write(p)` into a
fresh block (valid, writeable, nothing written) of capacity at least `len(p)`,
`WriteTo` into a `bytes.Buffer` returns `(len(p), nil)`, leaves the block as it
is, and the buffer has grown by exactly `p`. This holds for every length, below,
at and above the 4096-byte chunk size. -/
theorem C4_write_writeTo_roundtrip (s : State) (b : Block) (p buf : List Byte)
    (hb : s.blk = some b) (hv : Block.IsValid s.blk = true) (hx : b.x = false)
    (hfresh : b.n = 0) (hp : p ≠ []) (hcap : p.length ≤ b.c) :
    (Block.Write s p).2 = .ret ((p.length : Int), none) ∧
    Block.WriteTo (Block.Write s p).1 bytesBuffer buf =
      ((Block.Write s p).1, buf ++ p, .ret ((p.length : Int), none)) := by
  have hv' : b.v ≠ 0 := by simpa [hb, Block.IsValid] using hv
  have hp0 : p.length ≠ 0 := by
    intro h
    exact hp (List.length_eq_zero.mp h)
  have hle : ¬ ((p.length : Int) > (b.c : Int) - (b.n : Int)) := by omega
  rw [Block.Write_eq s b p hb hv' hx hp0, if_neg hle]
  refine ⟨rfl, ?_⟩
  rw [Block.WriteTo_bytesBuffer _ { b with n := b.n + p.length } buf rfl hv' (by simp; omega)]
  simp only [hfresh, Nat.zero_add, Nat.add_zero, readMem_memmoveTo]

/-- Witness of C4: one byte through the fresh one-page block. -/
theorem C4_write_writeTo_roundtrip_witness :
    (Block.Write freshState [7]).2 = .ret ((([7] : List Byte).length : Int), none) ∧
    Block.WriteTo (Block.Write freshState [7]).1 bytesBuffer [] =
      ((Block.Write freshState [7]).1, [] ++ [7], .ret ((([7] : List Byte).length : Int), none)) :=
  C4_write_writeTo_roundtrip freshState freshBlock [7] [] rfl rfl rfl rfl (by decide) (by decide)

/-- Calling `WriteTo` on a valid block with nothing written panics at `&p[0]`, whatever
the writer is, before the writer is called. -/
theorem Block.WriteTo_empty {σ : Type} (s : State) (b : Block) (w : Writer σ) (ws : σ)
    (hb : s.blk = some b) (hv : b.v ≠ 0) (hn : b.n = 0) :
    Block.WriteTo s w ws = (s, ws, .panic .indexOutOfRange) := by
  have hlen : Block.Len (some b) = .ret 0 := by
    simp [Block.Len, Block.IsValid, hv, hn]
  simp [Block.WriteTo, hb, hlen, make]

/-- C5, the code at the failing input. `Alloc(1)` on a 64-bit POSIX target with
4096-byte pages gives a valid block with `Len() == 0`; `WriteTo` into an empty
`bytes.Buffer` then panics with an index out of range (the `&p[0]` of a
zero-length slice) instead of returning `(0, nil)`. -/
theorem C5_writeTo_empty_block_panics :
    Block.IsValid (unix.allocState .w64 okOS zeroMem [] 1).blk = true ∧
    Block.Len (unix.allocState .w64 okOS zeroMem [] 1).blk = .ret 0 ∧
    (Block.WriteTo (unix.allocState .w64 okOS zeroMem [] 1) bytesBuffer []).2 =
      ([], .panic .indexOutOfRange) := by
  refine ⟨by decide, by decide, ?_⟩
  rfl

/-! ### `Exec` and `Close` on either backend -/

/-- Calling `Exec` on a non-nil receiver: one protection request over `[v, v + c)`; the
flag is set exactly when the request is granted. -/
theorem Backend.Exec_eq (be : Backend) (os : OS) (s : State) (b : Block) (hb : s.blk = some b) :
    be.Exec os s =
      match be.protect os b with
      | some err => ({ s with trace := s.trace ++ [be.protectCall b] }, .ret (some err))
      | none =>
        ({ s with trace := s.trace ++ [be.protectCall b], blk := some { b with x := true } },
          .ret none) := by
  cases be
  · simp only [Backend.Exec, unix.Exec, hb, Backend.protect, Backend.protectCall]
  · simp only [Backend.Exec, windows.Exec, hb, Backend.protect, Backend.protectCall]

theorem Backend.Exec_nil (be : Backend) (os : OS) (s : State) (hb : s.blk = none) :
    be.Exec os s = (s, .panic .nilDereference) := by
  cases be
  · simp only [Backend.Exec, unix.Exec, hb]
  · simp only [Backend.Exec, windows.Exec, hb]

/-- Calling `Close` on a valid receiver: one release request; the base is cleared
exactly when the request is granted. -/
theorem Backend.Close_eq (be : Backend) (os : OS) (s : State) (b : Block)
    (hb : s.blk = some b) (hv : b.v ≠ 0) :
    be.Close os s =
      match be.release os b with
      | some err => ({ s with trace := s.trace ++ [be.releaseCall b] }, .ret (some err))
      | none =>
        ({ s with trace := s.trace ++ [be.releaseCall b], blk := some { b with v := 0 } },
          .ret none) := by
  have hval : Block.IsValid (some b) = true := by simp [Block.IsValid, hv]
  cases be
  · simp only [Backend.Close, unix.Close, hb, hval, Backend.release, Backend.releaseCall,
      Bool.not_true, Bool.false_eq_true, if_false]
  · simp only [Backend.Close, windows.Close, hb, hval, Backend.release, Backend.releaseCall,
      Bool.not_true, Bool.false_eq_true, if_false]

/-- Calling `Close` on an invalid receiver (nil, or base zero) returns the invalid close
error and touches nothing. -/
theorem Backend.Close_invalid (be : Backend) (os : OS) (s : State)
    (hv : Block.IsValid s.blk = false) :
    be.Close os s = (s, .ret (some Error.InvalidClose)) := by
  cases be
  · simp only [Backend.Close, unix.Close, hv, Bool.not_false, if_true, ErrInvalidClose]
  · simp only [Backend.Close, windows.Close, hv, Bool.not_false, if_true, ErrInvalidClose]

theorem Backend.CloseAgain_invalid (be : Backend) (oss : List OS) (s : State)
    (hv : Block.IsValid s.blk = false) :
    be.CloseAgain oss s = (s, oss.map (fun _ => Outcome.ret (some Error.InvalidClose))) := by
  induction oss with
  | nil => rfl
  | cons os rest ih =>
    simp only [Backend.CloseAgain, Backend.Close_invalid be os s hv, ih, List.map_cons]

/-- The result of `WriteTo` depends on the block only through its base and its
written count, and on the memory. -/
theorem Block.WriteTo_congr {σ : Type} (s t : State) (b c : Block) (w : Writer σ) (ws : σ)
    (hs : s.blk = some b) (ht : t.blk = some c) (hv : b.v = c.v) (hn : b.n = c.n)
    (hm : s.mem = t.mem) :
    (Block.WriteTo s w ws).2 = (Block.WriteTo t w ws).2 := by
  simp only [Block.WriteTo, hs, ht, Block.Len, Block.IsValid, hv, hn, hm]
  split <;> rename_i heq <;> split at heq <;> simp_all
  split_ifs <;> rfl

/-- C6. One-way property: on a block on which `Exec` has succeeded (on either
backend), `Write(p)` panics for every byte slice `p`, empty or not, fitting or
not; it returns no value and the written count, the memory and the rest of the
state are exactly as before the call. -/
theorem C6_write_after_exec_panics (be : Backend) (os : OS) (s s' : State) (p : List Byte)
    (hexec : be.Exec os s = (s', .ret none)) :
    Block.Write s' p = (s', .panic .writeToExecutable) := by
  cases hb : s.blk with
  | none =>
    rw [Backend.Exec_nil be os s hb] at hexec
    simp at hexec
  | some b =>
    rw [Backend.Exec_eq be os s b hb] at hexec
    cases hprot : be.protect os b with
    | some err => simp [hprot] at hexec
    | none =>
      simp only [hprot, Prod.mk.injEq, and_true] at hexec
      subst hexec
      simp [Block.Write]

/-- Witness of C6: `Exec` on the fresh block, then a one-byte `Write`. -/
theorem C6_write_after_exec_panics_witness :
    Block.Write (Backend.Exec .posix okOS freshState).1 [0] =
      ((Backend.Exec .posix okOS freshState).1, .panic .writeToExecutable) :=
  C6_write_after_exec_panics .posix okOS freshState (Backend.Exec .posix okOS freshState).1 [0] rfl

/-- C7. `Exec` is idempotent on either backend: for every valid block, if the
protection change succeeds each time, two successive `Exec` calls both return
nil; after the first the block is the old one with the executable flag set, and
the second leaves it exactly so (same base, written count, capacity, flag);
memory is untouched by both, so `WriteTo` gives, for every writer, the result
it gave before, and a non-empty written part is exported to a `bytes.Buffer`
byte for byte. -/
theorem C7_exec_idempotent (be : Backend) (os₁ os₂ : OS) (s : State) (b : Block)
    (hb : s.blk = some b) (hv : Block.IsValid s.blk = true)
    (h₁ : be.protect os₁ b = none) (h₂ : be.protect os₂ b = none) :
    (be.Exec os₁ s).2 = .ret none ∧
    (be.Exec os₂ (be.Exec os₁ s).1).2 = .ret none ∧
    (be.Exec os₁ s).1.blk = some { b with x := true } ∧
    (be.Exec os₂ (be.Exec os₁ s).1).1.blk = (be.Exec os₁ s).1.blk ∧
    (be.Exec os₁ s).1.mem = s.mem ∧
    (be.Exec os₂ (be.Exec os₁ s).1).1.mem = s.mem ∧
    (∀ (σ : Type) (w : Writer σ) (ws : σ),
      (Block.WriteTo (be.Exec os₂ (be.Exec os₁ s).1).1 w ws).2 = (Block.WriteTo s w ws).2) ∧
    (0 < b.n → ∀ buf : List Byte,
      (Block.WriteTo (be.Exec os₂ (be.Exec os₁ s).1).1 bytesBuffer buf).2 =
        (buf ++ readMem s.mem b.v b.n, .ret ((b.n : Int), none))) := by
  have hv' : b.v ≠ 0 := by simpa [hb, Block.IsValid] using hv
  have h₂' : be.protect os₂ { b with x := true } = none := by
    cases be <;> simpa [Backend.protect] using h₂
  have e₁ : be.Exec os₁ s =
      ({ s with trace := s.trace ++ [be.protectCall b], blk := some { b with x := true } },
        .ret none) := by
    rw [Backend.Exec_eq be os₁ s b hb, h₁]
  have e₂ : be.Exec os₂ (be.Exec os₁ s).1 =
      ({ s with
          trace := s.trace ++ [be.protectCall b] ++ [be.protectCall { b with x := true }]
          blk := some { b with x := true } },
        .ret none) := by
    rw [e₁, Backend.Exec_eq be os₂ _ { b with x := true } rfl, h₂']
  rw [e₂, e₁]
  refine ⟨rfl, rfl, rfl, rfl, rfl, rfl, ?_, ?_⟩
  · intro σ w ws
    exact Block.WriteTo_congr _ s { b with x := true } b w ws rfl hb rfl rfl rfl
  · intro hn buf
    rw [Block.WriteTo_bytesBuffer _ { b with x := true } buf rfl hv' hn]

/-- Witness of C7: two `Exec` calls on a block with three bytes written. -/
theorem C7_exec_idempotent_witness :
    (Backend.Exec .posix okOS writtenState).2 = .ret none ∧
    (Backend.Exec .posix okOS (Backend.Exec .posix okOS writtenState).1).2 = .ret none ∧
    (Backend.Exec .posix okOS writtenState).1.blk = some { writtenBlock with x := true } ∧
    (Backend.Exec .posix okOS (Backend.Exec .posix okOS writtenState).1).1.blk =
      (Backend.Exec .posix okOS writtenState).1.blk ∧
    (Backend.Exec .posix okOS writtenState).1.mem = writtenState.mem ∧
    (Backend.Exec .posix okOS (Backend.Exec .posix okOS writtenState).1).1.mem =
      writtenState.mem ∧
    (∀ (σ : Type) (w : Writer σ) (ws : σ),
      (Block.WriteTo (Backend.Exec .posix okOS (Backend.Exec .posix okOS writtenState).1).1
        w ws).2 = (Block.WriteTo writtenState w ws).2) ∧
    (0 < writtenBlock.n → ∀ buf : List Byte,
      (Block.WriteTo (Backend.Exec .posix okOS (Backend.Exec .posix okOS writtenState).1).1
        bytesBuffer buf).2 =
        (buf ++ readMem writtenState.mem writtenBlock.v writtenBlock.n,
          .ret ((writtenBlock.n : Int), none))) :=
  C7_exec_idempotent .posix okOS okOS writtenState writtenBlock rfl rfl rfl rfl

/-- Method `Write` neither reads nor changes the log of operating system calls. -/
theorem Block.Write_trace (s : State) (tr : List Syscall) (p : List Byte) :
    Block.Write { s with trace := tr } p =
      ({ (Block.Write s p).1 with trace := tr }, (Block.Write s p).2) := by
  obtain ⟨blk, mem, tr0⟩ := s
  cases blk with
  | none => rfl
  | some b =>
    simp only [Block.Write]
    split_ifs
    · rfl
    · rfl
    · cases Block.Available (some b) <;> rfl

/-- C8. `Exec` is atomic on failure, on either backend: for every writeable
block, if the protection change returns an error `e`, `Exec` returns exactly `e`
after that one request and the block and the memory are unchanged (flag still
false, same base, written count and capacity), so a following `Write` behaves
as it would have before and a fitting one succeeds; and whatever the operating
system answers, the flag is set only if the protection change returned no
error (and then `Exec` returns nil). -/
theorem C8_exec_failure_atomic (be : Backend) (os : OS) (s : State) (b : Block) (e : Error)
    (hb : s.blk = some b) (hv : Block.IsValid s.blk = true) (hx : b.x = false)
    (hfail : be.protect os b = some e) :
    (be.Exec os s).2 = .ret (some e) ∧
    (be.Exec os s).1.blk = some b ∧
    (be.Exec os s).1.mem = s.mem ∧
    (be.Exec os s).1.trace = s.trace ++ [be.protectCall b] ∧
    (∀ p : List Byte,
      (Block.Write (be.Exec os s).1 p).2 = (Block.Write s p).2 ∧
      (Block.Write (be.Exec os s).1 p).1.blk = (Block.Write s p).1.blk ∧
      (Block.Write (be.Exec os s).1 p).1.mem = (Block.Write s p).1.mem) ∧
    (∀ p : List Byte, (p.length : Int) ≤ (b.c : Int) - (b.n : Int) →
      (Block.Write (be.Exec os s).1 p).2 = .ret ((p.length : Int), none)) ∧
    (∀ (os' : OS) (b' : Block), (be.Exec os' s).1.blk = some b' → b'.x = true →
      be.protect os' b = none ∧ (be.Exec os' s).2 = .ret none) := by
  have hv' : b.v ≠ 0 := by simpa [hb, Block.IsValid] using hv
  have e₁ : be.Exec os s =
      ({ s with trace := s.trace ++ [be.protectCall b] }, .ret (some e)) := by
    rw [Backend.Exec_eq be os s b hb, hfail]
  have hw : ∀ p : List Byte,
      (Block.Write (be.Exec os s).1 p).2 = (Block.Write s p).2 ∧
      (Block.Write (be.Exec os s).1 p).1.blk = (Block.Write s p).1.blk ∧
      (Block.Write (be.Exec os s).1 p).1.mem = (Block.Write s p).1.mem := by
    intro p
    rw [e₁]
    simp [Block.Write_trace]
  refine ⟨by rw [e₁], by rw [e₁, hb], by rw [e₁], by rw [e₁], hw, ?_, ?_⟩
  · intro p hfit
    rw [(hw p).1]
    by_cases hp : p.length = 0
    · simp [Block.Write, hb, hx, hp]
    · have hle : ¬ ((p.length : Int) > (b.c : Int) - (b.n : Int)) := by omega
      rw [Block.Write_eq s b p hb hv' hx hp, if_neg hle]
  · intro os' b' hb' hx'
    rw [Backend.Exec_eq be os' s b hb] at hb' ⊢
    cases hprot : be.protect os' b with
    | none => exact ⟨rfl, rfl⟩
    | some err =>
      simp only [hprot, hb, Option.some.injEq] at hb'
      subst hb'
      rw [hx] at hx'
      exact absurd hx' (by decide)

/-- Witness of C8: `Exec` on the fresh block while protection changes fail. -/
theorem C8_exec_failure_atomic_witness :
    (Backend.Exec .posix failingOS freshState).2 = .ret (some (Error.other 13)) ∧
    (Backend.Exec .posix failingOS freshState).1.blk = some freshBlock ∧
    (Backend.Exec .posix failingOS freshState).1.mem = freshState.mem ∧
    (Backend.Exec .posix failingOS freshState).1.trace =
      freshState.trace ++ [Backend.protectCall .posix freshBlock] ∧
    (∀ p : List Byte,
      (Block.Write (Backend.Exec .posix failingOS freshState).1 p).2 =
        (Block.Write freshState p).2 ∧
      (Block.Write (Backend.Exec .posix failingOS freshState).1 p).1.blk =
        (Block.Write freshState p).1.blk ∧
      (Block.Write (Backend.Exec .posix failingOS freshState).1 p).1.mem =
        (Block.Write freshState p).1.mem) ∧
    (∀ p : List Byte, (p.length : Int) ≤ (freshBlock.c : Int) - (freshBlock.n : Int) →
      (Block.Write (Backend.Exec .posix failingOS freshState).1 p).2 =
        .ret ((p.length : Int), none)) ∧
    (∀ (os' : OS) (b' : Block), (Backend.Exec .posix os' freshState).1.blk = some b' →
      b'.x = true →
      Backend.protect .posix os' freshBlock = none ∧
        (Backend.Exec .posix os' freshState).2 = .ret none) :=
  C8_exec_failure_atomic .posix failingOS freshState freshBlock (Error.other 13) rfl rfl rfl rfl

/-- C9. Blocks can be closed exactly once, on either backend: for every valid
block (writeable or executable), if the release succeeds then `Close` returns
nil after that one release request and clears the base, so that `IsValid()` is
false; every later `Close` on the same block, and `Close` on any invalid block
(nil included), returns the invalid close error without a further request to the
operating system, without panic and without changing anything, so `IsValid()`
stays false. -/
theorem C9_close_exactly_once (be : Backend) (os : OS) (s : State) (b : Block)
    (hb : s.blk = some b) (hv : Block.IsValid s.blk = true)
    (hrel : be.release os b = none) :
    (be.Close os s).2 = .ret none ∧
    (be.Close os s).1.blk = some { b with v := 0 } ∧
    (be.Close os s).1.mem = s.mem ∧
    (be.Close os s).1.trace = s.trace ++ [be.releaseCall b] ∧
    Block.IsValid (be.Close os s).1.blk = false ∧
    (∀ os' : OS,
      be.Close os' (be.Close os s).1 = ((be.Close os s).1, .ret (some Error.InvalidClose))) ∧
    (∀ oss : List OS,
      be.CloseAgain oss (be.Close os s).1 =
        ((be.Close os s).1, oss.map (fun _ => Outcome.ret (some Error.InvalidClose)))) ∧
    (∀ (os' : OS) (t : State), Block.IsValid t.blk = false →
      be.Close os' t = (t, .ret (some Error.InvalidClose))) ∧
    (∀ (os' : OS) (mem : Mem) (tr : List Syscall),
      be.Close os' { blk := none, mem := mem, trace := tr } =
        ({ blk := none, mem := mem, trace := tr }, .ret (some Error.InvalidClose))) := by
  have hv' : b.v ≠ 0 := by simpa [hb, Block.IsValid] using hv
  have e₁ : be.Close os s =
      ({ s with trace := s.trace ++ [be.releaseCall b], blk := some { b with v := 0 } },
        .ret none) := by
    rw [Backend.Close_eq be os s b hb hv', hrel]
  have hinv : Block.IsValid (be.Close os s).1.blk = false := by
    rw [e₁]
    rfl
  refine ⟨by rw [e₁], by rw [e₁], by rw [e₁], by rw [e₁], hinv, ?_, ?_, ?_, ?_⟩
  · intro os'
    exact Backend.Close_invalid be os' _ hinv
  · intro oss
    exact Backend.CloseAgain_invalid be oss _ hinv
  · intro os' t ht
    exact Backend.Close_invalid be os' t ht
  · intro os' mem tr
    exact Backend.Close_invalid be os' _ rfl

/-- Witness of C9: `Close` of the fresh block on the Windows backend. -/
theorem C9_close_exactly_once_witness :
    (Backend.Close .windows okOS freshState).2 = .ret none ∧
    (Backend.Close .windows okOS freshState).1.blk = some { freshBlock with v := 0 } ∧
    (Backend.Close .windows okOS freshState).1.mem = freshState.mem ∧
    (Backend.Close .windows okOS freshState).1.trace =
      freshState.trace ++ [Backend.releaseCall .windows freshBlock] ∧
    Block.IsValid (Backend.Close .windows okOS freshState).1.blk = false ∧
    (∀ os' : OS,
      Backend.Close .windows os' (Backend.Close .windows okOS freshState).1 =
        ((Backend.Close .windows okOS freshState).1, .ret (some Error.InvalidClose))) ∧
    (∀ oss : List OS,
      Backend.CloseAgain .windows oss (Backend.Close .windows okOS freshState).1 =
        ((Backend.Close .windows okOS freshState).1,
          oss.map (fun _ => Outcome.ret (some Error.InvalidClose)))) ∧
    (∀ (os' : OS) (t : State), Block.IsValid t.blk = false →
      Backend.Close .windows os' t = (t, .ret (some Error.InvalidClose))) ∧
    (∀ (os' : OS) (mem : Mem) (tr : List Syscall),
      Backend.Close .windows os' { blk := none, mem := mem, trace := tr } =
        ({ blk := none, mem := mem, trace := tr }, .ret (some Error.InvalidClose))) :=
  C9_close_exactly_once .windows okOS freshState freshBlock rfl rfl rfl

/-- C10, the claim fails. On the POSIX backend with a failing `Munmap`, the
first `Close` of the fresh block reports the release error; the second `Close`
does not return the invalid close error but asks the operating system again
(two `munmap` requests in the log) and reports the release error again. -/
theorem C10_second_close_releases_again :
    (unix.Close failingOS freshState).2 = .ret (some (Error.other 22)) ∧
    (unix.Close failingOS (unix.Close failingOS freshState).1).2 ≠
      .ret (some Error.InvalidClose) ∧
    (unix.Close failingOS (unix.Close failingOS freshState).1).2 =
      .ret (some (Error.other 22)) ∧
    (unix.Close failingOS (unix.Close failingOS freshState).1).1.trace =
      [Syscall.munmap 65536 4096, Syscall.munmap 65536 4096] := by
  decide

/-- C10, amended. On either backend, for every valid block whose first `Close`
reports the release error of the operating system, that `Close` leaves the block
as it was and still valid (the base is not cleared); a second `Close` on the
same block sends the release request again for the same region and returns
what the operating system answers then: nil, with the base cleared, if the
release now succeeds, and the error if it fails again. -/
theorem C10_close_after_failed_release (be : Backend) (os₁ os₂ : OS) (s : State) (b : Block)
    (e : Error) (hb : s.blk = some b) (hv : Block.IsValid s.blk = true)
    (hfail : be.release os₁ b = some e) :
    be.Close os₁ s = ({ s with trace := s.trace ++ [be.releaseCall b] }, .ret (some e)) ∧
    (be.Close os₁ s).1.blk = some b ∧
    Block.IsValid (be.Close os₁ s).1.blk = true ∧
    (be.Close os₂ (be.Close os₁ s).1).2 = .ret (be.release os₂ b) ∧
    (be.Close os₂ (be.Close os₁ s).1).1.trace =
      s.trace ++ [be.releaseCall b] ++ [be.releaseCall b] ∧
    (be.release os₂ b = none →
      (be.Close os₂ (be.Close os₁ s).1).1.blk = some { b with v := 0 } ∧
      Block.IsValid (be.Close os₂ (be.Close os₁ s).1).1.blk = false) ∧
    (be.release os₂ b ≠ none → (be.Close os₂ (be.Close os₁ s).1).1.blk = some b) := by
  have hv' : b.v ≠ 0 := by simpa [hb, Block.IsValid] using hv
  have e₁ : be.Close os₁ s =
      ({ s with trace := s.trace ++ [be.releaseCall b] }, .ret (some e)) := by
    rw [Backend.Close_eq be os₁ s b hb hv', hfail]
  have e₂ := Backend.Close_eq be os₂ { s with trace := s.trace ++ [be.releaseCall b] } b hb hv'
  rw [e₁]
  refine ⟨rfl, hb, by simpa [hb] using hv, ?_, ?_, ?_, ?_⟩
  · rw [e₂]
    cases be.release os₂ b <;> rfl
  · rw [e₂]
    cases be.release os₂ b <;> rfl
  · intro h
    rw [e₂, h]
    exact ⟨rfl, rfl⟩
  · intro h
    rw [e₂]
    cases hr : be.release os₂ b with
    | none => exact absurd hr h
    | some err => exact hb

/-- Witness of C10 (amended): two `Close` calls on the fresh block while
releases fail. -/
theorem C10_close_after_failed_release_witness :
    Backend.Close .posix failingOS freshState =
      ({ freshState with trace := freshState.trace ++ [Backend.releaseCall .posix freshBlock] },
        .ret (some (Error.other 22))) ∧
    (Backend.Close .posix failingOS freshState).1.blk = some freshBlock ∧
    Block.IsValid (Backend.Close .posix failingOS freshState).1.blk = true ∧
    (Backend.Close .posix failingOS (Backend.Close .posix failingOS freshState).1).2 =
      .ret (Backend.release .posix failingOS freshBlock) ∧
    (Backend.Close .posix failingOS (Backend.Close .posix failingOS freshState).1).1.trace =
      freshState.trace ++ [Backend.releaseCall .posix freshBlock] ++
        [Backend.releaseCall .posix freshBlock] ∧
    (Backend.release .posix failingOS freshBlock = none →
      (Backend.Close .posix failingOS (Backend.Close .posix failingOS freshState).1).1.blk =
        some { freshBlock with v := 0 } ∧
      Block.IsValid
        (Backend.Close .posix failingOS (Backend.Close .posix failingOS freshState).1).1.blk =
          false) ∧
    (Backend.release .posix failingOS freshBlock ≠ none →
      (Backend.Close .posix failingOS (Backend.Close .posix failingOS freshState).1).1.blk =
        some freshBlock) :=
  C10_close_after_failed_release .posix failingOS failingOS freshState freshBlock
    (Error.other 22) rfl rfl rfl

/-! ### Introspection, `Write`, `Exec` and `Func` on invalid blocks -/

/-- C11. Introspection fails exactly on invalid blocks: each of `Available()`,
`Len()` and `Cursor()` panics if and only if the block is nil or its base is
zero (`IsValid()` is false), and then with the invalid block panic; on a valid
block they return `capacity - written`, `written` and `written`, so that
`Cursor() == Len()` and `Available() + Len() == capacity`. They are functions
of the receiver alone and change nothing. -/
theorem C11_introspection (b : Option Block) :
    (Block.IsValid b = false ↔ (b = none ∨ ∃ blk : Block, b = some blk ∧ blk.v = 0)) ∧
    ((∃ e, Block.Available b = .panic e) ↔ Block.IsValid b = false) ∧
    ((∃ e, Block.Len b = .panic e) ↔ Block.IsValid b = false) ∧
    ((∃ e, Block.Cursor b = .panic e) ↔ Block.IsValid b = false) ∧
    (Block.IsValid b = false →
      Block.Available b = .panic .invalidBlock ∧ Block.Len b = .panic .invalidBlock ∧
        Block.Cursor b = .panic .invalidBlock) ∧
    (∀ blk : Block, b = some blk → Block.IsValid b = true →
      Block.Available b = .ret ((blk.c : Int) - (blk.n : Int)) ∧
      Block.Len b = .ret (blk.n : Int) ∧
      Block.Cursor b = .ret blk.n ∧
      ((blk.c : Int) - (blk.n : Int)) + (blk.n : Int) = (blk.c : Int)) := by
  cases b with
  | none => simp [Block.IsValid, Block.Available, Block.Len, Block.Cursor]
  | some blk =>
    by_cases hv : blk.v = 0
    · simp [Block.IsValid, Block.Available, Block.Len, Block.Cursor, hv]
    · simp [Block.IsValid, Block.Available, Block.Len, Block.Cursor, hv]

/-- C12, the code at the failing input. The fresh block after a successful
`Close` is invalid, and so is a zero `Block`; `Write` of the empty slice on
either returns `(0, nil)` instead of panicking, because the length check comes
before the validity check inside `Available`. -/
theorem C12_write_empty_on_invalid_returns :
    Block.IsValid (unix.Close okOS freshState).1.blk = false ∧
    (Block.Write (unix.Close okOS freshState).1 []).2 = .ret (0, none) ∧
    Block.IsValid (some (Block.mk 0 0 0 false)) = false ∧
    (Block.Write (State.mk (some (Block.mk 0 0 0 false)) zeroMem []) []).2 =
      .ret (0, none) := by
  decide

/-- On an invalid block `Write` panics for every non-empty slice, and on a nil
block for every slice; the state is left as it was. -/
theorem Block.Write_invalid_nonempty (s : State) (p : List Byte)
    (hv : Block.IsValid s.blk = false) (hp : p ≠ [] ∨ s.blk = none) :
    ∃ e, Block.Write s p = (s, .panic e) := by
  cases hb : s.blk with
  | none => exact ⟨.nilDereference, by simp [Block.Write, hb]⟩
  | some b =>
    have hv0 : b.v = 0 := by simpa [hb, Block.IsValid] using hv
    have hp0 : p.length ≠ 0 := by
      intro h
      rcases hp with hp | hp
      · exact hp (List.length_eq_zero.mp h)
      · simp [hb] at hp
    by_cases hx : b.x = true
    · exact ⟨.writeToExecutable, by simp [Block.Write, hb, hx]⟩
    · exact ⟨.invalidBlock,
        by simp [Block.Write, hb, hx, hp0, Block.Available, Block.IsValid, hv0]⟩

/-- C13, the code at the failing input. `Exec` on the closed block (base zero)
does not panic: on either backend it sends the protection request for address
zero to the operating system and, when that reports success, returns nil and
sets the executable flag of the invalid block. -/
theorem C13_exec_on_invalid_calls_backend :
    Block.IsValid closedState.blk = false ∧
    (unix.Exec okOS closedState).2 = .ret none ∧
    (unix.Exec okOS closedState).1.trace = [Syscall.mprotect 0 4096] ∧
    (unix.Exec okOS closedState).1.blk = some { closedBlock with x := true } ∧
    (windows.Exec okOS closedState).2 = .ret none ∧
    (windows.Exec okOS closedState).1.trace = [Syscall.virtualProtect 0 4096] ∧
    (windows.Exec okOS closedState).1.blk = some { closedBlock with x := true } := by
  decide

/-- C14. The precondition check of `Func`: for every block and every `addr`,
`Func` raises one of its three contract panics if and only if the block is
invalid, or its executable flag is not set (no `Exec` has succeeded on it), or
`addr >= Len()`; it raises no other panic. In particular every `addr` is
rejected on an executable block with nothing written. When the check passes,
the function value has the requested type and the code address `base + addr`,
with `base <= base + addr < base + Len()`. -/
theorem C14_func_precondition (b : Option Block) (addr : Nat) (typ : ReflectType) :
    ((Block.Func b addr typ = .panic .funcWithoutMemory ∨
        Block.Func b addr typ = .panic .funcInWriteable ∨
        Block.Func b addr typ = .panic .funcOutOfBounds) ↔
      (Block.IsValid b = false ∨ ∃ blk : Block, b = some blk ∧ (blk.x = false ∨ addr ≥ blk.n))) ∧
    ((∃ e, Block.Func b addr typ = .panic e) ↔
      (Block.IsValid b = false ∨ ∃ blk : Block, b = some blk ∧ (blk.x = false ∨ addr ≥ blk.n))) ∧
    (Block.IsValid b = false → Block.Func b addr typ = .panic .funcWithoutMemory) ∧
    (∀ blk : Block, b = some blk → Block.IsValid b = true → blk.x = false →
      Block.Func b addr typ = .panic .funcInWriteable) ∧
    (∀ blk : Block, b = some blk → Block.IsValid b = true → blk.x = true → addr ≥ blk.n →
      Block.Func b addr typ = .panic .funcOutOfBounds) ∧
    (∀ blk : Block, b = some blk → Block.IsValid b = true → blk.x = true → blk.n = 0 →
      Block.Func b addr typ = .panic .funcOutOfBounds) ∧
    (∀ blk : Block, b = some blk → Block.IsValid b = true → blk.x = true → addr < blk.n →
      Block.Func b addr typ = .ret { typ := typ, ptr := blk.v + addr } ∧
      blk.v ≤ blk.v + addr ∧ blk.v + addr < blk.v + blk.n) := by
  cases b with
  | none => simp [Block.Func, Block.IsValid]
  | some blk =>
    by_cases hv : blk.v = 0
    · simp [Block.Func, Block.IsValid, hv]
    · by_cases hx : blk.x = true
      · by_cases ha : addr < blk.n
        · have ha' : ¬ blk.n ≤ addr := by omega
          simp [Block.Func, Block.IsValid, hv, hx, ha, ha']
          omega
        · have ha' : blk.n ≤ addr := by omega
          simp [Block.Func, Block.IsValid, hv, hx, ha, ha']
      · have hx' : blk.x = false := by simpa using hx
        simp [Block.Func, Block.IsValid, hv, hx']

/-- Witness of C11: the block with three bytes written. -/
theorem C11_introspection_witness :
    Block.Available (some writtenBlock) = .ret 4093 ∧
    Block.Len (some writtenBlock) = .ret 3 ∧
    Block.Cursor (some writtenBlock) = .ret 3 ∧
    Block.Available (some closedBlock) = .panic .invalidBlock := by
  have h := (C11_introspection (some writtenBlock)).2.2.2.2.2 writtenBlock rfl rfl
  exact ⟨h.1, h.2.1, h.2.2.1, by decide⟩

/-- Witness of C14: offset 2 in an executable block with three bytes written. -/
theorem C14_func_precondition_witness :
    Block.Func (some { writtenBlock with x := true }) 2 7 = .ret { typ := 7, ptr := 65538 } ∧
    65536 ≤ 65536 + 2 ∧ 65536 + 2 < 65536 + 3 :=
  (C14_func_precondition (some { writtenBlock with x := true }) 2 7).2.2.2.2.2.2
    { writtenBlock with x := true } rfl rfl rfl (by decide)

/-! ### Page rounding with overflow -/

/-- When `n + ps - 1` exceeds the largest `int` and the page size is at most a
quarter of the range (`ps ≤ 2 ^ (bits - 2)`), the size computed by the POSIX
`Alloc` has wrapped to a negative number. -/
theorem unix.allocSize_overflow (w : WordSize) (ps n : Int) (hps : 0 < ps)
    (hn : n ≤ maxInt w) (hov : maxInt w < n + ps - 1) (hsmall : ps ≤ 2 ^ (w.bits - 2)) :
    unix.allocSize w ps n < 0 := by
  obtain ⟨y, hy, hylo, hyhi, hx⟩ : ∃ y : Int, n + ps - 1 = maxInt w + 1 + (maxInt w + 1) - y ∧
      ps ≤ y ∧ y ≤ maxInt w + 1 ∧ wrapInt w (wrapInt w (n + ps) - 1) = -y := by
    refine ⟨maxInt w + 1 + (maxInt w + 1) - (n + ps - 1), by ring, ?_, ?_, ?_⟩
    · cases w <;> simp only [maxInt, WordSize.bits] at * <;> omega
    · cases w <;> simp only [maxInt, WordSize.bits] at * <;> omega
    · rw [wrapInt_sub_one]
      cases w <;> simp only [wrapInt, maxInt, WordSize.bits] at * <;> omega
  have hy0 : 0 ≤ y := by omega
  have hq1 : 1 ≤ y / ps := Int.le_ediv_of_mul_le hps (by omega)
  have hmul : y / ps * ps ≤ y := Int.ediv_mul_le _ (ne_of_gt hps)
  have hqle : y / ps ≤ y := by
    have : y / ps * 1 ≤ y / ps * ps := mul_le_mul_of_nonneg_left (by omega) (by omega)
    omega
  have hpos : ps ≤ y / ps * ps := by
    have : 1 * ps ≤ y / ps * ps := mul_le_mul_of_nonneg_right hq1 (le_of_lt hps)
    omega
  have hmin : minInt w = -(maxInt w + 1) := by
    cases w <;> simp [minInt, maxInt, WordSize.bits]
  have hmax := maxInt_nonneg w
  have e2 : Int.tdiv (-y) ps = -(y / ps) := by
    rw [Int.neg_tdiv, Int.tdiv_eq_ediv hy0 (le_of_lt hps)]
  have e3 : wrapInt w (-(y / ps)) = -(y / ps) :=
    wrapInt_of_inRange w _ (by omega) (by omega)
  have e4 : wrapInt w (-(y / ps) * ps) = -(y / ps) * ps :=
    wrapInt_of_inRange w _ (by rw [neg_mul]; omega) (by rw [neg_mul]; omega)
  have hne : ¬ (-(y / ps) * ps = 0) := by rw [neg_mul]; omega
  simp only [unix.allocSize, hx, e2, e3, e4, hne, if_false]
  rw [neg_mul]
  omega

set_option maxRecDepth 8000 in
/-- C15, the claim fails. On a 64-bit POSIX target with 4096-byte pages,
`Alloc(MaxInt)` computes the wrapped size `-(2^63 - 4096)`, which is neither
positive nor at least `n`, and nothing rejects the request before the mapping
call: `Mmap` is called with that size, and it is its answer that `Alloc`
returns. The Windows `Alloc` likewise calls `VirtualAlloc`, with the wrapped
size converted to `uintptr`. -/
theorem C15_alloc_overflow_reaches_mmap :
    unix.allocSize .w64 strictOS.getpagesize (maxInt .w64) = -9223372036854771712 ∧
    ¬ (0 < unix.allocSize .w64 strictOS.getpagesize (maxInt .w64)) ∧
    ¬ (maxInt .w64 ≤ unix.allocSize .w64 strictOS.getpagesize (maxInt .w64)) ∧
    unix.Alloc .w64 strictOS [] (maxInt .w64) =
      ([Syscall.mmap (-9223372036854771712)], .ret (none, some (Error.other 22))) ∧
    (windows.Alloc .w64 strictOS [] (maxInt .w64)).1 =
      [Syscall.virtualAlloc 9223372036854779904] := by
  have h : unix.allocSize .w64 strictOS.getpagesize (maxInt .w64) = -9223372036854771712 := by
    rfl
  refine ⟨h, ?_, ?_, by rfl, by rfl⟩
  · rw [h]
    decide
  · rw [h]
    decide

/-- The POSIX size is the Windows size with zero replaced by one page. -/
theorem allocSize_eq_windows (w : WordSize) (ps n : Int) :
    unix.allocSize w ps n =
      if windows.allocSize w ps n = 0 then ps else windows.allocSize w ps n := rfl

theorem wrapInt_range (w : WordSize) (x : Int) :
    minInt w ≤ wrapInt w x ∧ wrapInt w x ≤ maxInt w := by
  cases w <;> simp only [wrapInt, minInt, maxInt, WordSize.bits] <;> omega

/-- The conversion `uintptr(x)` of a negative `int` adds `2 ^ bits`, which gives
a value above the largest `int`. -/
theorem toUintptr_of_neg (w : WordSize) (x : Int) (hlo : minInt w ≤ x) (hneg : x < 0) :
    (toUintptr w x : Int) = x + 2 ^ w.bits ∧ maxInt w < (toUintptr w x : Int) := by
  cases w <;> simp only [toUintptr, minInt, maxInt, WordSize.bits] at * <;> omega

/-- Without overflow the size computed by the Windows `Alloc` is the quotient
formula over the integers, zero included. -/
theorem allocSize_quotient (w : WordSize) (ps n : Int) (hps : 0 < ps) (hn : 0 ≤ n)
    (hov : n + ps - 1 ≤ maxInt w) :
    windows.allocSize w ps n = (n + ps - 1) / ps * ps := by
  have hx0 : 0 ≤ n + ps - 1 := by omega
  have hmin := minInt_nonpos w
  have hq0 : 0 ≤ (n + ps - 1) / ps := Int.ediv_nonneg hx0 (le_of_lt hps)
  have hmul : (n + ps - 1) / ps * ps ≤ n + ps - 1 := Int.ediv_mul_le _ (ne_of_gt hps)
  have hqle : (n + ps - 1) / ps ≤ n + ps - 1 := by
    have : (n + ps - 1) / ps * 1 ≤ (n + ps - 1) / ps * ps :=
      mul_le_mul_of_nonneg_left (by omega) hq0
    omega
  have hc0 : 0 ≤ (n + ps - 1) / ps * ps := mul_nonneg hq0 (le_of_lt hps)
  have e1 : wrapInt w (wrapInt w (n + ps) - 1) = n + ps - 1 := by
    rw [wrapInt_sub_one]
    exact wrapInt_of_inRange w _ (by omega) hov
  have e2 : Int.tdiv (n + ps - 1) ps = (n + ps - 1) / ps :=
    Int.tdiv_eq_ediv hx0 (le_of_lt hps)
  have e3 : wrapInt w ((n + ps - 1) / ps) = (n + ps - 1) / ps :=
    wrapInt_of_inRange w _ (by omega) (by omega)
  have e4 : wrapInt w ((n + ps - 1) / ps * ps) = (n + ps - 1) / ps * ps :=
    wrapInt_of_inRange w _ (by omega) (by omega)
  simp only [windows.allocSize, e1, e2, e3, e4]

/-- Without overflow and for `n ≥ 1` both backends compute the same size. -/
theorem allocSize_windows_eq_unix (w : WordSize) (ps n : Int) (hps : 0 < ps) (hn : 1 ≤ n)
    (hov : n + ps - 1 ≤ maxInt w) :
    windows.allocSize w ps n = unix.allocSize w ps n := by
  have hq := allocSize_quotient w ps n hps (by omega) hov
  have hq1 : 1 ≤ (n + ps - 1) / ps := Int.le_ediv_of_mul_le hps (by omega)
  have hge : 1 * ps ≤ (n + ps - 1) / ps * ps :=
    mul_le_mul_of_nonneg_right hq1 (le_of_lt hps)
  have hne : ¬ (windows.allocSize w ps n = 0) := by
    rw [hq]
    omega
  rw [allocSize_eq_windows, if_neg hne]

/-- With overflow (as in `unix.allocSize_overflow`) the Windows size is the
same negative number as the POSIX size. -/
theorem allocSize_overflow_windows (w : WordSize) (ps n : Int) (hps : 0 < ps)
    (hn : n ≤ maxInt w) (hov : maxInt w < n + ps - 1) (hsmall : ps ≤ 2 ^ (w.bits - 2)) :
    windows.allocSize w ps n = unix.allocSize w ps n ∧ windows.allocSize w ps n < 0 := by
  have hneg := unix.allocSize_overflow w ps n hps hn hov hsmall
  have hrel := allocSize_eq_windows w ps n
  by_cases hz : windows.allocSize w ps n = 0
  · rw [if_pos hz] at hrel
    omega
  · rw [if_neg hz] at hrel
    exact ⟨hrel.symm, by omega⟩

/-- C15, amended. Neither `Alloc` guards the page rounding against overflow:
for every page size `ps > 0` and every `n ≥ 0` nothing is rejected before the
mapping call. The POSIX `Alloc` makes exactly one `Mmap` call, with the size
`c = (n + ps - 1) / ps * ps` (zero forced to `ps`), and the Windows `Alloc`
exactly one `VirtualAlloc` call, with `uintptr(c)` for `c = (n + ps - 1) / ps * ps`,
both computed in wrapping `int` arithmetic. When `n + ps - 1` does not exceed
the largest `int`, the POSIX size is positive, a multiple of `ps` and at least
`n`, and for `n ≥ 1` the Windows size is the same number. When it does exceed
it, for a representable `n` and `ps ≤ 2 ^ (bits - 2)`, `c` has wrapped to the
same negative number on both backends: the POSIX `Alloc` passes that negative
length to `Mmap` and, when `Mmap` refuses it, returns that error and no block;
the Windows `Alloc` passes `c + 2 ^ bits`, a size above the largest `int`, to
`VirtualAlloc` and, when that is granted, returns a block of that capacity. -/
theorem C15_alloc_page_rounding (w : WordSize) (os : OS) (tr : List Syscall) (n : Int)
    (hps : 0 < os.getpagesize) (hn : 0 ≤ n) :
    (unix.Alloc w os tr n).1 = tr ++ [Syscall.mmap (unix.allocSize w os.getpagesize n)] ∧
    (windows.Alloc w os tr n).1 =
      tr ++ [Syscall.virtualAlloc (toUintptr w (windows.allocSize w os.getpagesize n))] ∧
    (n + os.getpagesize - 1 ≤ maxInt w →
      0 < unix.allocSize w os.getpagesize n ∧
      os.getpagesize ∣ unix.allocSize w os.getpagesize n ∧
      n ≤ unix.allocSize w os.getpagesize n ∧
      (1 ≤ n →
        windows.allocSize w os.getpagesize n = unix.allocSize w os.getpagesize n ∧
        (toUintptr w (windows.allocSize w os.getpagesize n) : Int) =
          unix.allocSize w os.getpagesize n)) ∧
    (n ≤ maxInt w → maxInt w < n + os.getpagesize - 1 →
      os.getpagesize ≤ 2 ^ (w.bits - 2) →
      unix.allocSize w os.getpagesize n < 0 ∧
      (∀ e : Error, os.mmap (unix.allocSize w os.getpagesize n) = .error e →
        unix.Alloc w os tr n =
          (tr ++ [Syscall.mmap (unix.allocSize w os.getpagesize n)], .ret (none, some e))) ∧
      windows.allocSize w os.getpagesize n = unix.allocSize w os.getpagesize n ∧
      (toUintptr w (windows.allocSize w os.getpagesize n) : Int) =
        windows.allocSize w os.getpagesize n + 2 ^ w.bits ∧
      maxInt w < (toUintptr w (windows.allocSize w os.getpagesize n) : Int) ∧
      (∀ p : Nat,
        os.virtualAlloc (toUintptr w (windows.allocSize w os.getpagesize n)) = .ok p →
        windows.Alloc w os tr n =
          (tr ++ [Syscall.virtualAlloc (toUintptr w (windows.allocSize w os.getpagesize n))],
            .ret (some (Block.mk p 0 (toUintptr w (windows.allocSize w os.getpagesize n)) false),
              none)))) := by
  have hn' : ¬ n < 0 := by omega
  have hps' : os.getpagesize ≠ 0 := ne_of_gt hps
  refine ⟨?_, ?_, ?_, ?_⟩
  · simp only [unix.Alloc, hn', hps', if_false]
    cases os.mmap (unix.allocSize w os.getpagesize n) <;> rfl
  · simp only [windows.Alloc, hn', hps', if_false]
    cases os.virtualAlloc (toUintptr w (windows.allocSize w os.getpagesize n)) <;> rfl
  · intro hov
    obtain ⟨hpos, hle, hdvd, hge, _, _, _⟩ :=
      unix.allocSize_spec w os.getpagesize n hps hn hov
    refine ⟨hpos, hdvd, hge, ?_⟩
    intro h1
    have heq := allocSize_windows_eq_unix w os.getpagesize n hps h1 hov
    refine ⟨heq, ?_⟩
    rw [heq]
    exact toUintptr_of_inRange w _ (le_of_lt hpos) hle
  · intro hmax hov hsmall
    obtain ⟨heq, hneg⟩ := allocSize_overflow_windows w os.getpagesize n hps hmax hov hsmall
    have hrange : minInt w ≤ windows.allocSize w os.getpagesize n :=
      (wrapInt_range w _).1
    obtain ⟨hcast, hbig⟩ := toUintptr_of_neg w _ hrange hneg
    refine ⟨unix.allocSize_overflow w os.getpagesize n hps hmax hov hsmall, ?_, heq, hcast,
      hbig, ?_⟩
    · intro e hm
      simp only [unix.Alloc, hn', hps', if_false, hm]
    · intro p hm
      simp only [windows.Alloc, hn', hps', if_false, hm]

set_option maxRecDepth 8000 in
/-- Witness of C15 (amended): 5000 bytes, and the largest `int`, on a 64-bit
target with 4096-byte pages, where `Mmap` refuses lengths that are not positive
and `VirtualAlloc` grants every size but zero. -/
theorem C15_alloc_page_rounding_witness :
    ((unix.Alloc .w64 strictOS [] 5000).1 =
        [] ++ [Syscall.mmap (unix.allocSize .w64 strictOS.getpagesize 5000)] ∧
      (windows.Alloc .w64 strictOS [] 5000).1 =
        [] ++ [Syscall.virtualAlloc
          (toUintptr .w64 (windows.allocSize .w64 strictOS.getpagesize 5000))]) ∧
    (0 < unix.allocSize .w64 strictOS.getpagesize 5000 ∧
      strictOS.getpagesize ∣ unix.allocSize .w64 strictOS.getpagesize 5000 ∧
      5000 ≤ unix.allocSize .w64 strictOS.getpagesize 5000 ∧
      windows.allocSize .w64 strictOS.getpagesize 5000 =
        unix.allocSize .w64 strictOS.getpagesize 5000) ∧
    unix.allocSize .w64 strictOS.getpagesize (maxInt .w64) < 0 ∧
    unix.Alloc .w64 strictOS [] (maxInt .w64) =
      ([] ++ [Syscall.mmap (unix.allocSize .w64 strictOS.getpagesize (maxInt .w64))],
        .ret (none, some (Error.other 22))) ∧
    maxInt .w64 <
      (toUintptr .w64 (windows.allocSize .w64 strictOS.getpagesize (maxInt .w64)) : Int) ∧
    windows.Alloc .w64 strictOS [] (maxInt .w64) =
      ([] ++ [Syscall.virtualAlloc
          (toUintptr .w64 (windows.allocSize .w64 strictOS.getpagesize (maxInt .w64)))],
        .ret (some (Block.mk 65536 0
          (toUintptr .w64 (windows.allocSize .w64 strictOS.getpagesize (maxInt .w64))) false),
          none)) := by
  have small := C15_alloc_page_rounding .w64 strictOS [] 5000 (by decide) (by decide)
  have big := C15_alloc_page_rounding .w64 strictOS [] (maxInt .w64) (by decide) (by decide)
  have hsmall := small.2.2.1 (by decide)
  have hbig := big.2.2.2 (by decide) (by decide) (by decide)
  exact ⟨⟨small.1, small.2.1⟩,
    ⟨hsmall.1, hsmall.2.1, hsmall.2.2.1, (hsmall.2.2.2 (by decide)).1⟩,
    hbig.1, hbig.2.1 (Error.other 22) (by rfl), hbig.2.2.2.2.1,
    hbig.2.2.2.2.2 65536 (by rfl)⟩

set_option maxRecDepth 8000 in
/-- C16, the code at the failing input. With 4096-byte pages, `Alloc(0)` on the
POSIX backend asks `Mmap` for 4096 bytes, and on the Windows backend asks
`VirtualAlloc` for 0 bytes: the Windows `Alloc` lacks the `if c == 0` that
forces one page, so the two sizes differ and the Windows request is a
zero-length region (which the operating system turns down). -/
theorem C16_windows_alloc_zero_requests_nothing :
    unix.Alloc .w64 strictOS [] 0 =
      ([Syscall.mmap 4096],
        .ret (some { v := 65536, n := 0, c := 4096, x := false }, none)) ∧
    windows.Alloc .w64 strictOS [] 0 =
      ([Syscall.virtualAlloc 0], .ret (none, some (Error.other 87))) ∧
    windows.Alloc .w64 okOS [] 0 =
      ([Syscall.virtualAlloc 0],
        .ret (some { v := 65536, n := 0, c := 0, x := false }, none)) := by
  refine ⟨by rfl, by rfl, by rfl⟩

/-! ### Sequences of calls -/

/-- Nothing that `WriteTo` does changes the block, the memory or the log. -/
theorem Block.WriteTo_state {σ : Type} (s : State) (w : Writer σ) (ws : σ) :
    (Block.WriteTo s w ws).1 = s := by
  simp only [Block.WriteTo]
  split
  · rfl
  · split
    · rfl
    · split_ifs <;> rfl

/-- What one call can do to a non-nil receiver: the capacity stays, the written
count does not shrink and stays within the capacity if it was, the base stays
or is cleared, and the flag, once set, stays set and freezes the written count
and the memory. -/
theorem Backend.step_some (be : Backend) (s : State) (op : Op) (b : Block)
    (hb : s.blk = some b) :
    ∃ b' : Block, (be.step s op).blk = some b' ∧ b'.c = b.c ∧ b.n ≤ b'.n ∧
      (b.n ≤ b.c → b'.n ≤ b.c) ∧ (b'.v = b.v ∨ b'.v = 0) ∧
      (b.x = true → b'.x = true ∧ b'.n = b.n ∧ (be.step s op).mem = s.mem) := by
  have hsame : ∃ b' : Block, s.blk = some b' ∧ b'.c = b.c ∧ b.n ≤ b'.n ∧
      (b.n ≤ b.c → b'.n ≤ b.c) ∧ (b'.v = b.v ∨ b'.v = 0) ∧
      (b.x = true → b'.x = true ∧ b'.n = b.n ∧ s.mem = s.mem) :=
    ⟨b, hb, rfl, le_refl _, fun h => h, Or.inl rfl, fun h => ⟨h, rfl, rfl⟩⟩
  cases op with
  | write p =>
    simp only [Backend.step]
    by_cases hx : b.x = true
    · have hw : Block.Write s p = (s, .panic .writeToExecutable) := by
        simp [Block.Write, hb, hx]
      rw [hw]
      exact hsame
    · have hx' : b.x = false := by simpa using hx
      by_cases hp : p.length = 0
      · have hw : Block.Write s p = (s, .ret (0, none)) := by
          simp [Block.Write, hb, hx', hp]
        rw [hw]
        exact hsame
      · by_cases hv : b.v = 0
        · have hw : Block.Write s p = (s, .panic .invalidBlock) := by
            simp [Block.Write, hb, hx', hp, Block.Available, Block.IsValid, hv]
          rw [hw]
          exact hsame
        · rw [Block.Write_eq s b p hb hv hx' hp]
          split_ifs with hgt
          · refine ⟨_, rfl, rfl, Nat.le_add_right _ _, ?_, Or.inl rfl, ?_⟩
            · intro hle
              show b.n + ((b.c : Int) - (b.n : Int)).toNat ≤ b.c
              omega
            · intro h
              exact absurd h hx
          · refine ⟨_, rfl, rfl, Nat.le_add_right _ _, ?_, Or.inl rfl, ?_⟩
            · intro _
              show b.n + p.length ≤ b.c
              omega
            · intro h
              exact absurd h hx
  | writeTo σ w ws =>
    have h : be.step s (Op.writeTo σ w ws) = s := Block.WriteTo_state s w ws
    rw [h]
    exact hsame
  | exec os =>
    simp only [Backend.step]
    rw [Backend.Exec_eq be os s b hb]
    cases be.protect os b with
    | some err => exact hsame
    | none =>
      exact ⟨_, rfl, rfl, le_refl _, fun h => h, Or.inl rfl, fun _ => ⟨rfl, rfl, rfl⟩⟩
  | func addr typ => exact hsame
  | close os =>
    simp only [Backend.step]
    by_cases hv : b.v = 0
    · have hinv : Block.IsValid s.blk = false := by simp [hb, Block.IsValid, hv]
      rw [Backend.Close_invalid be os s hinv]
      exact hsame
    · rw [Backend.Close_eq be os s b hb hv]
      cases be.release os b with
      | some err => exact hsame
      | none =>
        exact ⟨_, rfl, rfl, le_refl _, fun h => h, Or.inr rfl, fun h => ⟨h, rfl, rfl⟩⟩
  | isValid => exact hsame
  | available => exact hsame
  | len => exact hsame
  | cursor => exact hsame

/-- The same over a finite sequence of calls. -/
theorem Backend.run_some (be : Backend) (ops : List Op) :
    ∀ (s : State) (b : Block), s.blk = some b →
      ∃ b' : Block, (be.run s ops).blk = some b' ∧ b'.c = b.c ∧ b.n ≤ b'.n ∧
        (b.n ≤ b.c → b'.n ≤ b.c) ∧ (b'.v = b.v ∨ b'.v = 0) ∧
        (b.x = true → b'.x = true ∧ b'.n = b.n ∧ (be.run s ops).mem = s.mem) := by
  induction ops with
  | nil =>
    intro s b hb
    exact ⟨b, hb, rfl, le_refl _, fun h => h, Or.inl rfl, fun h => ⟨h, rfl, rfl⟩⟩
  | cons op rest ih =>
    intro s b hb
    obtain ⟨b₁, hb₁, hc₁, hn₁, hle₁, hv₁, hx₁⟩ := Backend.step_some be s op b hb
    obtain ⟨b₂, hb₂, hc₂, hn₂, hle₂, hv₂, hx₂⟩ := ih (be.step s op) b₁ hb₁
    refine ⟨b₂, ?_, ?_, ?_, ?_, ?_, ?_⟩
    · simpa [Backend.run] using hb₂
    · rw [hc₂, hc₁]
    · omega
    · intro h
      have h1 := hle₁ h
      have h2 := hle₂ (by omega)
      omega
    · rcases hv₂ with h | h
      · rcases hv₁ with h' | h'
        · exact Or.inl (h.trans h')
        · exact Or.inr (h.trans h')
      · exact Or.inr h
    · intro h
      obtain ⟨hx, hn, hm⟩ := hx₁ h
      obtain ⟨hx', hn', hm'⟩ := hx₂ hx
      refine ⟨hx', hn'.trans hn, ?_⟩
      have : (be.run s (op :: rest)).mem = (be.run (be.step s op) rest).mem := by
        simp [Backend.run]
      rw [this, hm', hm]

/-- The block that a successful POSIX `Alloc` returns. -/
theorem Alloc_block_unix (w : WordSize) (os : OS) (tr tr' : List Syscall) (n : Int)
    (b : Block) (e : Option Error)
    (halloc : unix.Alloc w os tr n = (tr', .ret (some b, e))) :
    b.n = 0 ∧ b.x = false ∧ b.c = toUintptr w (unix.allocSize w os.getpagesize n) := by
  simp only [unix.Alloc] at halloc
  split_ifs at halloc
  · simp at halloc
  · simp at halloc
  · cases hm : os.mmap (unix.allocSize w os.getpagesize n) with
    | error err => simp [hm] at halloc
    | ok p =>
      simp only [hm, Prod.mk.injEq, Outcome.ret.injEq, Option.some.injEq] at halloc
      obtain ⟨_, hb, _⟩ := halloc
      subst hb
      exact ⟨rfl, rfl, rfl⟩

/-- The block that a successful Windows `Alloc` returns. -/
theorem Alloc_block_windows (w : WordSize) (os : OS) (tr tr' : List Syscall) (n : Int)
    (b : Block) (e : Option Error)
    (halloc : windows.Alloc w os tr n = (tr', .ret (some b, e))) :
    b.n = 0 ∧ b.x = false ∧ b.c = toUintptr w (windows.allocSize w os.getpagesize n) := by
  simp only [windows.Alloc] at halloc
  split_ifs at halloc
  · simp at halloc
  · simp at halloc
  · cases hm : os.virtualAlloc (toUintptr w (windows.allocSize w os.getpagesize n)) with
    | error err => simp [hm] at halloc
    | ok p =>
      simp only [hm, Prod.mk.injEq, Outcome.ret.injEq, Option.some.injEq] at halloc
      obtain ⟨_, hb, _⟩ := halloc
      subst hb
      exact ⟨rfl, rfl, rfl⟩

/-- C17. Block invariant: for every block returned by a successful POSIX
`Alloc(n)` (`n ≥ 0`, page size positive, no overflow) and every finite sequence
of `Write`, `WriteTo`, `Exec`, `Func`, `Close` and introspection calls on it
(on either backend, whatever the operating system and the writers answer),
`written ≤ capacity` holds afterwards and the capacity is still the one fixed
at allocation, `roundUpToPage(max(n, 1))`, a positive multiple of the page size
that is at least `n`; hence whenever `Available()` returns, its value is not
negative. -/
theorem C17_block_invariant (be : Backend) (w : WordSize) (os : OS) (tr tr' : List Syscall)
    (n : Int) (b₀ : Block) (mem : Mem) (ops : List Op)
    (hps : 0 < os.getpagesize) (hn : 0 ≤ n) (hov : n + os.getpagesize - 1 ≤ maxInt w)
    (halloc : unix.Alloc w os tr n = (tr', .ret (some b₀, none))) :
    ∃ b : Block,
      (be.run { blk := some b₀, mem := mem, trace := tr' } ops).blk = some b ∧
      b.n ≤ b.c ∧ b.c = b₀.c ∧ 0 < b.c ∧
      (b.c : Int) = roundUpToPage os.getpagesize (max n 1) ∧
      os.getpagesize ∣ (b.c : Int) ∧ n ≤ (b.c : Int) ∧
      (∀ a : Int,
        Block.Available (be.run { blk := some b₀, mem := mem, trace := tr' } ops).blk = .ret a →
          0 ≤ a) := by
  obtain ⟨hn₀, _, hc₀⟩ := Alloc_block_unix w os tr tr' n b₀ none halloc
  obtain ⟨hpos, hle, hdvd, hge, _, _, hround⟩ :=
    unix.allocSize_spec w os.getpagesize n hps hn hov
  have hcast : (b₀.c : Int) = unix.allocSize w os.getpagesize n := by
    rw [hc₀]
    exact toUintptr_of_inRange w _ (le_of_lt hpos) hle
  obtain ⟨b, hb, hc, _, hinv, _, _⟩ :=
    Backend.run_some be ops { blk := some b₀, mem := mem, trace := tr' } b₀ rfl
  have hnc : b.n ≤ b.c := by
    have := hinv (by omega)
    omega
  have hcc : (b.c : Int) = unix.allocSize w os.getpagesize n := by rw [hc, hcast]
  refine ⟨b, hb, hnc, hc, ?_, ?_, ?_, ?_, ?_⟩
  · have : (0 : Int) < (b.c : Int) := by rw [hcc]; exact hpos
    omega
  · rw [hcc]
    exact hround
  · rw [hcc]
    exact hdvd
  · rw [hcc]
    exact hge
  · intro a ha
    rw [hb] at ha
    by_cases hv : b.v = 0
    · simp [Block.Available, Block.IsValid, hv] at ha
    · simp [Block.Available, Block.IsValid, hv] at ha
      omega

/-- Witness of C17: `Alloc(5000)`, then a write, an `Exec`, a write attempt,
`Len` and a `Close`. -/
theorem C17_block_invariant_witness :
    ∃ b : Block,
      (Backend.run .posix { blk := some twoPageBlock, mem := zeroMem, trace := twoPageState.trace }
        sampleOps).blk = some b ∧
      b.n ≤ b.c ∧ b.c = twoPageBlock.c ∧ 0 < b.c ∧
      (b.c : Int) = roundUpToPage okOS.getpagesize (max 5000 1) ∧
      okOS.getpagesize ∣ (b.c : Int) ∧ (5000 : Int) ≤ (b.c : Int) ∧
      (∀ a : Int,
        Block.Available (Backend.run .posix
          { blk := some twoPageBlock, mem := zeroMem, trace := twoPageState.trace }
          sampleOps).blk = .ret a → 0 ≤ a) :=
  C17_block_invariant .posix .w64 okOS [] twoPageState.trace 5000 twoPageBlock zeroMem sampleOps
    (by decide) (by decide) (by decide) (by decide)

/-- C18. The executable transition is one-way and freezes the contents: the
flag is false on every block that `Alloc` returns (either backend), and once an
`Exec` has succeeded then after every finite sequence of later calls (`Write`
attempts, `WriteTo`, `Exec`, `Func`, `Close`, introspection) the flag is still
true, the written count and the capacity are those at the moment of the
transition, and the memory, so also the written bytes, is unchanged. -/
theorem C18_exec_one_way (be : Backend) (os : OS) (s s₁ : State) (ops : List Op)
    (hexec : be.Exec os s = (s₁, .ret none)) :
    (∀ (be' : Backend) (w : WordSize) (os' : OS) (tr tr' : List Syscall) (n : Int)
        (b : Block) (e : Option Error),
      be'.Alloc w os' tr n = (tr', .ret (some b, e)) → b.x = false) ∧
    ∃ b₁ b₂ : Block, s₁.blk = some b₁ ∧ b₁.x = true ∧
      (be.run s₁ ops).blk = some b₂ ∧ b₂.x = true ∧ b₂.n = b₁.n ∧ b₂.c = b₁.c ∧
      (be.run s₁ ops).mem = s₁.mem ∧
      readMem (be.run s₁ ops).mem b₁.v b₁.n = readMem s₁.mem b₁.v b₁.n := by
  constructor
  · intro be' w os' tr tr' n b e halloc
    cases be' with
    | posix => exact (Alloc_block_unix w os' tr tr' n b e halloc).2.1
    | windows => exact (Alloc_block_windows w os' tr tr' n b e halloc).2.1
  · cases hb : s.blk with
    | none =>
      rw [Backend.Exec_nil be os s hb] at hexec
      simp at hexec
    | some b =>
      rw [Backend.Exec_eq be os s b hb] at hexec
      cases hprot : be.protect os b with
      | some err => simp [hprot] at hexec
      | none =>
        simp only [hprot, Prod.mk.injEq, and_true] at hexec
        subst hexec
        obtain ⟨b₂, hb₂, hc, _, _, _, hx⟩ :=
          Backend.run_some be ops
            { s with trace := s.trace ++ [be.protectCall b], blk := some { b with x := true } }
            { b with x := true } rfl
        obtain ⟨hx₂, hn₂, hm₂⟩ := hx rfl
        exact ⟨{ b with x := true }, b₂, rfl, rfl, hb₂, hx₂, hn₂, hc, hm₂, by rw [hm₂]⟩

/-- Witness of C18: `Exec` on the block with three bytes written, then a write
attempt, a second `Exec` that fails, and a `Close`. -/
theorem C18_exec_one_way_witness :
    ∃ b₁ b₂ : Block, (Backend.Exec .posix okOS writtenState).1.blk = some b₁ ∧ b₁.x = true ∧
      (Backend.run .posix (Backend.Exec .posix okOS writtenState).1
        [Op.write [9], Op.exec failingOS, Op.close okOS]).blk = some b₂ ∧
      b₂.x = true ∧ b₂.n = b₁.n ∧ b₂.c = b₁.c ∧
      (Backend.run .posix (Backend.Exec .posix okOS writtenState).1
        [Op.write [9], Op.exec failingOS, Op.close okOS]).mem =
        (Backend.Exec .posix okOS writtenState).1.mem ∧
      readMem (Backend.run .posix (Backend.Exec .posix okOS writtenState).1
        [Op.write [9], Op.exec failingOS, Op.close okOS]).mem b₁.v b₁.n =
        readMem (Backend.Exec .posix okOS writtenState).1.mem b₁.v b₁.n :=
  (C18_exec_one_way .posix okOS writtenState (Backend.Exec .posix okOS writtenState).1
    [Op.write [9], Op.exec failingOS, Op.close okOS] rfl).2

/-- C19. `Exec` changes the protection of the whole region and `Close` releases
it from the base: for every valid block, whatever has been written, the POSIX
`Exec` makes one `Mprotect` request for the base and the full capacity and the
Windows `Exec` one `VirtualProtect` request for the same, never for the written
length, and each returns what the operating system answers to that request; the
POSIX `Close` makes one `Munmap` request for the base and the full capacity, and
the Windows `Close` one `VirtualFree` request for the base with size 0, which
with `MEM_RELEASE` stands for the whole region. -/
theorem C19_exec_close_whole_region (os : OS) (s : State) (b : Block)
    (hb : s.blk = some b) (hv : Block.IsValid s.blk = true) :
    (unix.Exec os s).1.trace = s.trace ++ [Syscall.mprotect b.v b.c] ∧
    (unix.Exec os s).2 = .ret (os.mprotect b.v b.c) ∧
    (windows.Exec os s).1.trace = s.trace ++ [Syscall.virtualProtect b.v b.c] ∧
    (windows.Exec os s).2 = .ret (os.virtualProtect b.v b.c) ∧
    (unix.Close os s).1.trace = s.trace ++ [Syscall.munmap b.v b.c] ∧
    (unix.Close os s).2 = .ret (os.munmap b.v b.c) ∧
    (windows.Close os s).1.trace = s.trace ++ [Syscall.virtualFree b.v 0] ∧
    (windows.Close os s).2 = .ret (os.virtualFree b.v 0) := by
  have hv' : b.v ≠ 0 := by simpa [hb, Block.IsValid] using hv
  have e₁ := Backend.Exec_eq .posix os s b hb
  have e₂ := Backend.Exec_eq .windows os s b hb
  have c₁ := Backend.Close_eq .posix os s b hb hv'
  have c₂ := Backend.Close_eq .windows os s b hb hv'
  simp only [Backend.Exec, Backend.Close, Backend.protect, Backend.protectCall,
    Backend.release, Backend.releaseCall] at e₁ e₂ c₁ c₂
  rw [e₁, e₂, c₁, c₂]
  refine ⟨?_, ?_, ?_, ?_, ?_, ?_, ?_, ?_⟩
  · cases os.mprotect b.v b.c <;> rfl
  · cases os.mprotect b.v b.c <;> rfl
  · cases os.virtualProtect b.v b.c <;> rfl
  · cases os.virtualProtect b.v b.c <;> rfl
  · cases os.munmap b.v b.c <;> rfl
  · cases os.munmap b.v b.c <;> rfl
  · cases os.virtualFree b.v 0 <;> rfl
  · cases os.virtualFree b.v 0 <;> rfl

/-- Witness of C19: the block with three bytes written on a one-page region. -/
theorem C19_exec_close_whole_region_witness :
    (unix.Exec okOS writtenState).1.trace = writtenState.trace ++ [Syscall.mprotect 65536 4096] ∧
    (unix.Exec okOS writtenState).2 = .ret (okOS.mprotect 65536 4096) ∧
    (windows.Exec okOS writtenState).1.trace =
      writtenState.trace ++ [Syscall.virtualProtect 65536 4096] ∧
    (windows.Exec okOS writtenState).2 = .ret (okOS.virtualProtect 65536 4096) ∧
    (unix.Close okOS writtenState).1.trace = writtenState.trace ++ [Syscall.munmap 65536 4096] ∧
    (unix.Close okOS writtenState).2 = .ret (okOS.munmap 65536 4096) ∧
    (windows.Close okOS writtenState).1.trace =
      writtenState.trace ++ [Syscall.virtualFree 65536 0] ∧
    (windows.Close okOS writtenState).2 = .ret (okOS.virtualFree 65536 0) :=
  C19_exec_close_whole_region okOS writtenState writtenBlock rfl rfl

/-! ### Chunked export -/

theorem recording_Write {σ : Type} (w : Writer σ) (ws : σ) (log : List (List Byte))
    (p : List Byte) :
    (recording w).Write (ws, log) p =
      (((w.Write ws p).1, log ++ [p]), (w.Write ws p).2.1, (w.Write ws p).2.2) := rfl

/-- The loop of `WriteTo` against a writer that never returns an error, from
offset `o < bn`: the recording writer and the plain one end in the same state
with the same count; the slices passed are `ceil((bn - o) / 4096)` many, the
`i`-th is the memory at offset `o + 4096 * i` of length `min 4096 (rest)`, and
together they are the memory from `o` to `bn`. -/
theorem WriteTo.loop_recording {σ : Type} (w : Writer σ) (mem : Mem) (v bn : Nat)
    (hok : ∀ (ws : σ) (p : List Byte), (w.Write ws p).2.2 = none) :
    ∀ (k : Nat) (p : List Byte) (o : Nat) (n : Int) (ws : σ) (log : List (List Byte)),
      bn - o = k → p.length = WriteTo.ps → o < bn →
      ∃ (cs : List (List Byte)) (ws' : σ) (n' : Int),
        WriteTo.loop (recording w) mem v bn p o n (ws, log) = ((ws', log ++ cs), n', none) ∧
        WriteTo.loop w mem v bn p o n ws = (ws', n', none) ∧
        cs.length = (bn - o + 4095) / 4096 ∧
        (∀ (i : Nat) (h : i < cs.length),
          cs[i] = readMem mem (v + o + 4096 * i) (min 4096 (bn - o - 4096 * i))) ∧
        cs.flatten = readMem mem (v + o) (bn - o) ∧
        ((∀ (ws : σ) (p : List Byte), (w.Write ws p).2.1 = (p.length : Int)) →
          n' = n + ((bn - o : Nat) : Int)) := by
  intro k
  induction k using Nat.strong_induction_on with
  | _ k ih =>
    intro p o n ws log hk hp ho
    have hps : WriteTo.ps = 4096 := rfl
    by_cases hgt : bn - o > WriteTo.ps
    · have hp1 : memmoveFrom p mem (v + o) WriteTo.ps = readMem mem (v + o) WriteTo.ps :=
        memmoveFrom_whole p mem (v + o) WriteTo.ps hp
      obtain ⟨cs, ws', n', h1, h2, h3, h4, h5, h6⟩ :=
        ih (bn - (o + WriteTo.ps)) (by omega) (readMem mem (v + o) WriteTo.ps)
          (o + WriteTo.ps) (n + (w.Write ws (readMem mem (v + o) WriteTo.ps)).2.1)
          (w.Write ws (readMem mem (v + o) WriteTo.ps)).1
          (log ++ [readMem mem (v + o) WriteTo.ps]) rfl (readMem_length _ _ _) (by omega)
      refine ⟨readMem mem (v + o) WriteTo.ps :: cs, ws', n', ?_, ?_, ?_, ?_, ?_, ?_⟩
      · rw [WriteTo.loop]
        simp only [hgt, if_true, hp1, recording_Write, hok]
        rw [h1]
        simp
      · rw [WriteTo.loop]
        simp only [hgt, if_true, hp1, hok]
        exact h2
      · simp only [List.length_cons, h3]
        omega
      · intro i h
        cases i with
        | zero =>
          have hmin : min 4096 (bn - o - 4096 * 0) = WriteTo.ps := by omega
          simp only [List.getElem_cons_zero, Nat.mul_zero, Nat.add_zero, hmin]
        | succ j =>
          have hj : j < cs.length := by simpa using h
          have ea : v + (o + WriteTo.ps) + 4096 * j = v + o + 4096 * (j + 1) := by omega
          have el : bn - (o + WriteTo.ps) - 4096 * j = bn - o - 4096 * (j + 1) := by omega
          simp only [List.getElem_cons_succ]
          rw [h4 j hj, ea, el]
      · have hsplit : bn - o = WriteTo.ps + (bn - (o + WriteTo.ps)) := by omega
        rw [List.flatten_cons, h5, hsplit, readMem_add, Nat.add_assoc]
      · intro hcnt
        rw [h6 hcnt, hcnt, readMem_length]
        omega
    · have hlen : (memmoveFrom p mem (v + o) (bn - o)).take (bn - o) =
          readMem mem (v + o) (bn - o) := take_memmoveFrom p mem (v + o) (bn - o)
      refine ⟨[readMem mem (v + o) (bn - o)],
        (w.Write ws (readMem mem (v + o) (bn - o))).1,
        n + (w.Write ws (readMem mem (v + o) (bn - o))).2.1, ?_, ?_, ?_, ?_, ?_, ?_⟩
      · rw [WriteTo.loop]
        simp only [hgt, if_false, hlen, recording_Write, hok]
      · rw [WriteTo.loop]
        simp only [hgt, if_false, hlen, hok]
      · simp only [List.length_singleton]
        omega
      · intro i h
        have hi : i = 0 := by simpa using h
        subst hi
        have hmin : min 4096 (bn - o - 4096 * 0) = bn - o := by omega
        simp only [List.getElem_cons_zero, Nat.mul_zero, Nat.add_zero, hmin]
      · simp
      · intro hcnt
        rw [hcnt, readMem_length]

/-- C20. Chunked export: for every valid block with `L = Len() ≥ 1` and every
writer that never returns an error, `WriteTo` returns after exactly
`ceil(L / 4096)` calls of the writer (`cs` lists their arguments, as kept by the
recording writer, which ends in the same writer state and count as the plain
one). The `i`-th argument is the slice of the written part at offset `4096 * i`
of length `min(4096, L - 4096 * i)`: consecutive, in order, all but the last
exactly 4096 bytes and the last between 1 and 4096; for `L ≤ 4096` there is one
call with the `L` written bytes. The concatenation of the arguments is the
written part, and when the writer reports every slice as written in full the
returned count is `L`. The block is unchanged. -/
theorem C20_chunked_export {σ : Type} (s : State) (b : Block) (w : Writer σ) (ws : σ)
    (hb : s.blk = some b) (hv : Block.IsValid s.blk = true) (hL : 0 < b.n)
    (hok : ∀ (ws : σ) (p : List Byte), (w.Write ws p).2.2 = none) :
    ∃ (cs : List (List Byte)) (ws' : σ) (cnt : Int),
      Block.WriteTo s (recording w) (ws, []) = (s, (ws', cs), .ret (cnt, none)) ∧
      Block.WriteTo s w ws = (s, ws', .ret (cnt, none)) ∧
      cs.length = (b.n + 4095) / 4096 ∧
      (∀ (i : Nat) (h : i < cs.length),
        cs[i] = readMem s.mem (b.v + 4096 * i) (min 4096 (b.n - 4096 * i))) ∧
      (∀ (i : Nat) (h : i < cs.length), i + 1 < cs.length → (cs[i]).length = 4096) ∧
      (∀ (i : Nat) (h : i < cs.length), i + 1 = cs.length →
        1 ≤ (cs[i]).length ∧ (cs[i]).length ≤ 4096) ∧
      cs.flatten = readMem s.mem b.v b.n ∧
      (b.n ≤ 4096 → cs = [readMem s.mem b.v b.n]) ∧
      ((∀ (ws : σ) (p : List Byte), (w.Write ws p).2.1 = (p.length : Int)) →
        cnt = (b.n : Int)) := by
  have hv' : b.v ≠ 0 := by simpa [hb, Block.IsValid] using hv
  have hps : WriteTo.ps = 4096 := rfl
  have hlen : Block.Len (some b) = .ret (b.n : Int) := by
    simp [Block.Len, Block.IsValid, hv']
  have key : ∃ (cs : List (List Byte)) (ws' : σ) (cnt : Int),
      Block.WriteTo s (recording w) (ws, []) = (s, (ws', cs), .ret (cnt, none)) ∧
      Block.WriteTo s w ws = (s, ws', .ret (cnt, none)) ∧
      cs.length = (b.n + 4095) / 4096 ∧
      (∀ (i : Nat) (h : i < cs.length),
        cs[i] = readMem s.mem (b.v + 4096 * i) (min 4096 (b.n - 4096 * i))) ∧
      cs.flatten = readMem s.mem b.v b.n ∧
      ((∀ (ws : σ) (p : List Byte), (w.Write ws p).2.1 = (p.length : Int)) →
        cnt = (b.n : Int)) := by
    by_cases hsmall : b.n ≤ WriteTo.ps
    · have hne : (make b.n).length ≠ 0 := by simp [make]; omega
      have hwhole : memmoveFrom (make b.n) s.mem b.v b.n = readMem s.mem b.v b.n :=
        memmoveFrom_whole _ _ _ _ (by simp [make])
      refine ⟨[readMem s.mem b.v b.n], (w.Write ws (readMem s.mem b.v b.n)).1,
        (w.Write ws (readMem s.mem b.v b.n)).2.1, ?_, ?_, ?_, ?_, ?_, ?_⟩
      · simp only [Block.WriteTo, hb, hlen, Int.toNat_ofNat, hsmall, if_true, hne, if_false,
          hwhole, recording_Write, hok, List.nil_append]
      · simp only [Block.WriteTo, hb, hlen, Int.toNat_ofNat, hsmall, if_true, hne, if_false,
          hwhole, hok]
      · simp only [List.length_singleton]
        omega
      · intro i h
        have hi : i = 0 := by simpa using h
        subst hi
        have hmin : min 4096 (b.n - 4096 * 0) = b.n := by omega
        simp only [List.getElem_cons_zero, Nat.mul_zero, Nat.add_zero, hmin]
      · simp
      · intro hcnt
        rw [hcnt, readMem_length]
    · obtain ⟨cs, ws', n', h1, h2, h3, h4, h5, h6⟩ :=
        WriteTo.loop_recording w s.mem b.v b.n hok (b.n - 0) (make WriteTo.ps) 0 0 ws []
          rfl (by simp [make]) hL
      refine ⟨cs, ws', n', ?_, ?_, ?_, ?_, ?_, ?_⟩
      · simp only [Block.WriteTo, hb, hlen, Int.toNat_ofNat, hsmall, if_false, h1,
          List.nil_append]
      · simp only [Block.WriteTo, hb, hlen, Int.toNat_ofNat, hsmall, if_false, h2]
      · simpa using h3
      · intro i h
        simpa using h4 i h
      · simpa using h5
      · intro hcnt
        simpa using h6 hcnt
  obtain ⟨cs, ws', cnt, h1, h2, h3, h4, h5, h6⟩ := key
  refine ⟨cs, ws', cnt, h1, h2, h3, h4, ?_, ?_, h5, ?_, h6⟩
  · intro i h hnext
    rw [h4 i h, readMem_length]
    omega
  · intro i h hlast
    rw [h4 i h, readMem_length]
    omega
  · intro hsmall
    have hone : cs.length = 1 := by omega
    obtain ⟨c, rfl⟩ := List.length_eq_one.mp hone
    have h0 := h4 0 (by simp)
    have hmin : min 4096 (b.n - 4096 * 0) = b.n := by omega
    simp only [List.getElem_cons_zero, Nat.mul_zero, Nat.add_zero, hmin] at h0
    rw [h0]

/-- Witness of C20: export of 8193 written bytes into `io.Discard`. -/
theorem C20_chunked_export_witness :
    ∃ (cs : List (List Byte)) (ws' : Unit) (cnt : Int),
      Block.WriteTo bigState (recording discard) ((), []) =
        (bigState, (ws', cs), .ret (cnt, none)) ∧
      Block.WriteTo bigState discard () = (bigState, ws', .ret (cnt, none)) ∧
      cs.length = (bigBlock.n + 4095) / 4096 ∧
      (∀ (i : Nat) (h : i < cs.length),
        cs[i] = readMem bigState.mem (bigBlock.v + 4096 * i) (min 4096 (bigBlock.n - 4096 * i))) ∧
      (∀ (i : Nat) (h : i < cs.length), i + 1 < cs.length → (cs[i]).length = 4096) ∧
      (∀ (i : Nat) (h : i < cs.length), i + 1 = cs.length →
        1 ≤ (cs[i]).length ∧ (cs[i]).length ≤ 4096) ∧
      cs.flatten = readMem bigState.mem bigBlock.v bigBlock.n ∧
      (bigBlock.n ≤ 4096 → cs = [readMem bigState.mem bigBlock.v bigBlock.n]) ∧
      ((∀ (ws : Unit) (p : List Byte), (discard.Write ws p).2.1 = (p.length : Int)) →
        cnt = (bigBlock.n : Int)) :=
  C20_chunked_export bigState bigBlock discard () rfl rfl (by decide) (fun _ _ => rfl)

/-! ### Export against a writer that may fail -/

theorem tracing_Write {σ : Type} (w : Writer σ) (ws : σ) (log : List WriteCall)
    (p : List Byte) :
    (tracing w).Write (ws, log) p =
      (((w.Write ws p).1,
          log ++ [WriteCall.mk p (w.Write ws p).2.1 (w.Write ws p).2.2]),
        (w.Write ws p).2.1, (w.Write ws p).2.2) := rfl

/-- The loop of `WriteTo` against an arbitrary writer, from offset `o < bn`. The
tracing writer and the plain one end in the same state with the same count and
error. At least one call is made, at most `ceil((bn - o) / 4096)`; the count
grows by the sum of the counts the calls returned; every call but the last
returned no error and the error of the last call is the one returned; the
`i`-th call got the memory at offset `o + 4096 * i`. -/
theorem WriteTo.loop_tracing {σ : Type} (w : Writer σ) (mem : Mem) (v bn : Nat) :
    ∀ (k : Nat) (p : List Byte) (o : Nat) (n : Int) (ws : σ) (log : List WriteCall),
      bn - o = k → p.length = WriteTo.ps → o < bn →
      ∃ (cs : List WriteCall) (ws' : σ) (n' : Int) (err : Option Error),
        WriteTo.loop (tracing w) mem v bn p o n (ws, log) = ((ws', log ++ cs), n', err) ∧
        WriteTo.loop w mem v bn p o n ws = (ws', n', err) ∧
        1 ≤ cs.length ∧ cs.length ≤ (bn - o + 4095) / 4096 ∧
        n' = n + (cs.map WriteCall.n).sum ∧
        (∀ (i : Nat) (h : i < cs.length), i + 1 < cs.length → (cs[i]).err = none) ∧
        (∀ (i : Nat) (h : i < cs.length), i + 1 = cs.length → (cs[i]).err = err) ∧
        (∀ (i : Nat) (h : i < cs.length),
          (cs[i]).arg = readMem mem (v + o + 4096 * i) (min 4096 (bn - o - 4096 * i))) ∧
        (err = none → cs.length = (bn - o + 4095) / 4096) ∧
        ((∀ (ws : σ) (p : List Byte),
            0 ≤ (w.Write ws p).2.1 ∧ (w.Write ws p).2.1 ≤ (p.length : Int)) →
          n ≤ n' ∧ n' ≤ n + ((bn - o : Nat) : Int)) := by
  intro k
  induction k using Nat.strong_induction_on with
  | _ k ih =>
    intro p o n ws log hk hp ho
    have hps : WriteTo.ps = 4096 := rfl
    by_cases hgt : bn - o > WriteTo.ps
    · have hp1 : memmoveFrom p mem (v + o) WriteTo.ps = readMem mem (v + o) WriteTo.ps :=
        memmoveFrom_whole p mem (v + o) WriteTo.ps hp
      have hmin0 : min 4096 (bn - o - 4096 * 0) = WriteTo.ps := by omega
      cases hr : (w.Write ws (readMem mem (v + o) WriteTo.ps)).2.2 with
      | some e =>
        refine ⟨[WriteCall.mk (readMem mem (v + o) WriteTo.ps)
              (w.Write ws (readMem mem (v + o) WriteTo.ps)).2.1
              (w.Write ws (readMem mem (v + o) WriteTo.ps)).2.2],
          (w.Write ws (readMem mem (v + o) WriteTo.ps)).1,
          n + (w.Write ws (readMem mem (v + o) WriteTo.ps)).2.1, some e,
          ?_, ?_, ?_, ?_, ?_, ?_, ?_, ?_, ?_, ?_⟩
        · rw [WriteTo.loop]
          simp only [hgt, if_true, hp1, tracing_Write, hr]
        · rw [WriteTo.loop]
          simp only [hgt, if_true, hp1, hr]
        · simp
        · simp only [List.length_singleton]
          omega
        · simp
        · intro i h hnext
          simp at hnext
        · intro i h _
          have hi : i = 0 := by simpa using h
          subst hi
          simpa using hr
        · intro i h
          have hi : i = 0 := by simpa using h
          subst hi
          simp only [List.getElem_cons_zero, Nat.mul_zero, Nat.add_zero, hmin0]
        · intro h
          simp at h
        · intro hc
          have h1 := hc ws (readMem mem (v + o) WriteTo.ps)
          rw [readMem_length] at h1
          omega
      | none =>
        obtain ⟨cs, ws', n', err, h1, h2, h3, h4, h5, h6, h7, h8, h9, h10⟩ :=
          ih (bn - (o + WriteTo.ps)) (by omega) (readMem mem (v + o) WriteTo.ps)
            (o + WriteTo.ps) (n + (w.Write ws (readMem mem (v + o) WriteTo.ps)).2.1)
            (w.Write ws (readMem mem (v + o) WriteTo.ps)).1
            (log ++ [WriteCall.mk (readMem mem (v + o) WriteTo.ps)
              (w.Write ws (readMem mem (v + o) WriteTo.ps)).2.1
              (w.Write ws (readMem mem (v + o) WriteTo.ps)).2.2])
            rfl (readMem_length _ _ _) (by omega)
        refine ⟨(WriteCall.mk (readMem mem (v + o) WriteTo.ps)
              (w.Write ws (readMem mem (v + o) WriteTo.ps)).2.1
              (w.Write ws (readMem mem (v + o) WriteTo.ps)).2.2) :: cs,
          ws', n', err, ?_, ?_, ?_, ?_, ?_, ?_, ?_, ?_, ?_, ?_⟩
        · rw [WriteTo.loop]
          simp only [hgt, if_true, hp1, tracing_Write, hr]
          rw [hr] at h1
          rw [h1]
          simp
        · rw [WriteTo.loop]
          simp only [hgt, if_true, hp1, hr]
          exact h2
        · simp
        · simp only [List.length_cons]
          omega
        · rw [h5]
          simp only [List.map_cons, List.sum_cons]
          omega
        · intro i h hnext
          cases i with
          | zero => simpa using hr
          | succ j =>
            have hj : j < cs.length := by simpa using h
            simp only [List.getElem_cons_succ]
            exact h6 j hj (by simpa using hnext)
        · intro i h hlast
          cases i with
          | zero =>
            simp only [List.length_cons] at hlast
            omega
          | succ j =>
            have hj : j < cs.length := by simpa using h
            simp only [List.getElem_cons_succ]
            exact h7 j hj (by simpa using hlast)
        · intro i h
          cases i with
          | zero => simp only [List.getElem_cons_zero, Nat.mul_zero, Nat.add_zero, hmin0]
          | succ j =>
            have hj : j < cs.length := by simpa using h
            have ea : v + (o + WriteTo.ps) + 4096 * j = v + o + 4096 * (j + 1) := by omega
            have el : bn - (o + WriteTo.ps) - 4096 * j = bn - o - 4096 * (j + 1) := by omega
            simp only [List.getElem_cons_succ]
            rw [h8 j hj, ea, el]
        · intro h
          simp only [List.length_cons, h9 h]
          omega
        · intro hc
          have hb1 := hc ws (readMem mem (v + o) WriteTo.ps)
          rw [readMem_length] at hb1
          have hb2 := h10 hc
          have hcast : ((bn - o : Nat) : Int) =
              (WriteTo.ps : Int) + ((bn - (o + WriteTo.ps) : Nat) : Int) := by omega
          omega
    · have hlen : (memmoveFrom p mem (v + o) (bn - o)).take (bn - o) =
          readMem mem (v + o) (bn - o) := take_memmoveFrom p mem (v + o) (bn - o)
      have hmin0 : min 4096 (bn - o - 4096 * 0) = bn - o := by omega
      refine ⟨[WriteCall.mk (readMem mem (v + o) (bn - o))
            (w.Write ws (readMem mem (v + o) (bn - o))).2.1
            (w.Write ws (readMem mem (v + o) (bn - o))).2.2],
        (w.Write ws (readMem mem (v + o) (bn - o))).1,
        n + (w.Write ws (readMem mem (v + o) (bn - o))).2.1,
        (w.Write ws (readMem mem (v + o) (bn - o))).2.2,
        ?_, ?_, ?_, ?_, ?_, ?_, ?_, ?_, ?_, ?_⟩
      · rw [WriteTo.loop]
        simp only [hgt, if_false, hlen, tracing_Write]
      · rw [WriteTo.loop]
        simp only [hgt, if_false, hlen]
      · simp
      · simp only [List.length_singleton]
        omega
      · simp
      · intro i h hnext
        simp at hnext
      · intro i h _
        have hi : i = 0 := by simpa using h
        subst hi
        simp
      · intro i h
        have hi : i = 0 := by simpa using h
        subst hi
        simp only [List.getElem_cons_zero, Nat.mul_zero, Nat.add_zero, hmin0]
      · intro _
        simp only [List.length_singleton]
        omega
      · intro hc
        have h1 := hc ws (readMem mem (v + o) (bn - o))
        rw [readMem_length] at h1
        omega

/-- C21. Export stops at the first writer failure: for every valid block with at
least one byte written and every writer, `WriteTo` returns without changing the
block, after at least one and at most `ceil(L / 4096)` calls of the writer (`cs`
lists them, as kept by the tracing writer, which ends in the same writer state
and result as the plain one). The `i`-th call gets the slice of the written part
at offset `4096 * i`; every call but the last returned no error, so a call that
returns an error `e` is the last one made; the returned error is the one of the
last call and the returned count is the sum of the counts of all calls made.
Hence if the `k`-th call is the first to fail, with `e`, there are exactly `k`
calls and the result is (sum of the counts of calls `1..k`, `e`). This covers
the single-call path and every iteration and the last chunk of the chunked
path. With counts within `0 .. len(p)` the returned count lies in `0 .. L`. -/
theorem C21_export_stops_at_first_failure {σ : Type} (s : State) (b : Block) (w : Writer σ)
    (ws : σ) (hb : s.blk = some b) (hv : Block.IsValid s.blk = true) (hL : 0 < b.n) :
    ∃ (cs : List WriteCall) (ws' : σ) (cnt : Int) (err : Option Error),
      Block.WriteTo s (tracing w) (ws, []) = (s, (ws', cs), .ret (cnt, err)) ∧
      Block.WriteTo s w ws = (s, ws', .ret (cnt, err)) ∧
      1 ≤ cs.length ∧ cs.length ≤ (b.n + 4095) / 4096 ∧
      cnt = (cs.map WriteCall.n).sum ∧
      (∀ (i : Nat) (h : i < cs.length), i + 1 < cs.length → (cs[i]).err = none) ∧
      (∀ (i : Nat) (h : i < cs.length), i + 1 = cs.length → (cs[i]).err = err) ∧
      (∀ (i : Nat) (h : i < cs.length),
        (cs[i]).arg = readMem s.mem (b.v + 4096 * i) (min 4096 (b.n - 4096 * i))) ∧
      (err = none → cs.length = (b.n + 4095) / 4096) ∧
      (∀ (k : Nat) (e : Error) (h : k < cs.length), (cs[k]).err = some e →
        cs.length = k + 1 ∧ err = some e ∧ cnt = ((cs.take (k + 1)).map WriteCall.n).sum) ∧
      ((∀ (ws : σ) (p : List Byte),
          0 ≤ (w.Write ws p).2.1 ∧ (w.Write ws p).2.1 ≤ (p.length : Int)) →
        0 ≤ cnt ∧ cnt ≤ (b.n : Int)) := by
  have hv' : b.v ≠ 0 := by simpa [hb, Block.IsValid] using hv
  have hps : WriteTo.ps = 4096 := rfl
  have hlen : Block.Len (some b) = .ret (b.n : Int) := by
    simp [Block.Len, Block.IsValid, hv']
  have key : ∃ (cs : List WriteCall) (ws' : σ) (cnt : Int) (err : Option Error),
      Block.WriteTo s (tracing w) (ws, []) = (s, (ws', cs), .ret (cnt, err)) ∧
      Block.WriteTo s w ws = (s, ws', .ret (cnt, err)) ∧
      1 ≤ cs.length ∧ cs.length ≤ (b.n + 4095) / 4096 ∧
      cnt = (cs.map WriteCall.n).sum ∧
      (∀ (i : Nat) (h : i < cs.length), i + 1 < cs.length → (cs[i]).err = none) ∧
      (∀ (i : Nat) (h : i < cs.length), i + 1 = cs.length → (cs[i]).err = err) ∧
      (∀ (i : Nat) (h : i < cs.length),
        (cs[i]).arg = readMem s.mem (b.v + 4096 * i) (min 4096 (b.n - 4096 * i))) ∧
      (err = none → cs.length = (b.n + 4095) / 4096) ∧
      ((∀ (ws : σ) (p : List Byte),
          0 ≤ (w.Write ws p).2.1 ∧ (w.Write ws p).2.1 ≤ (p.length : Int)) →
        0 ≤ cnt ∧ cnt ≤ (b.n : Int)) := by
    by_cases hsmall : b.n ≤ WriteTo.ps
    · have hne : (make b.n).length ≠ 0 := by simp [make]; omega
      have hwhole : memmoveFrom (make b.n) s.mem b.v b.n = readMem s.mem b.v b.n :=
        memmoveFrom_whole _ _ _ _ (by simp [make])
      have hmin0 : min 4096 (b.n - 4096 * 0) = b.n := by omega
      refine ⟨[WriteCall.mk (readMem s.mem b.v b.n) (w.Write ws (readMem s.mem b.v b.n)).2.1
            (w.Write ws (readMem s.mem b.v b.n)).2.2],
        (w.Write ws (readMem s.mem b.v b.n)).1, (w.Write ws (readMem s.mem b.v b.n)).2.1,
        (w.Write ws (readMem s.mem b.v b.n)).2.2, ?_, ?_, ?_, ?_, ?_, ?_, ?_, ?_, ?_, ?_⟩
      · simp only [Block.WriteTo, hb, hlen, Int.toNat_ofNat, hsmall, if_true, hne, if_false,
          hwhole, tracing_Write, List.nil_append]
      · simp only [Block.WriteTo, hb, hlen, Int.toNat_ofNat, hsmall, if_true, hne, if_false,
          hwhole]
      · simp
      · simp only [List.length_singleton]
        omega
      · simp
      · intro i h hnext
        simp at hnext
      · intro i h _
        have hi : i = 0 := by simpa using h
        subst hi
        simp
      · intro i h
        have hi : i = 0 := by simpa using h
        subst hi
        simp only [List.getElem_cons_zero, Nat.mul_zero, Nat.add_zero, hmin0]
      · intro _
        simp only [List.length_singleton]
        omega
      · intro hc
        have h1 := hc ws (readMem s.mem b.v b.n)
        rw [readMem_length] at h1
        exact h1
    · obtain ⟨cs, ws', n', err, h1, h2, h3, h4, h5, h6, h7, h8, h9, h10⟩ :=
        WriteTo.loop_tracing w s.mem b.v b.n (b.n - 0) (make WriteTo.ps) 0 0 ws []
          rfl (by simp [make]) hL
      refine ⟨cs, ws', n', err, ?_, ?_, h3, ?_, ?_, h6, h7, ?_, ?_, ?_⟩
      · simp only [Block.WriteTo, hb, hlen, Int.toNat_ofNat, hsmall, if_false, h1,
          List.nil_append]
      · simp only [Block.WriteTo, hb, hlen, Int.toNat_ofNat, hsmall, if_false, h2]
      · simpa using h4
      · simpa using h5
      · intro i h
        simpa using h8 i h
      · intro h
        simpa using h9 h
      · intro hc
        simpa using h10 hc
  obtain ⟨cs, ws', cnt, err, h1, h2, h3, h4, h5, h6, h7, h8, h9, h10⟩ := key
  refine ⟨cs, ws', cnt, err, h1, h2, h3, h4, h5, h6, h7, h8, h9, ?_, h10⟩
  intro k e h hke
  have hlast : k + 1 = cs.length := by
    by_contra hne
    have hlt : k + 1 < cs.length := by omega
    rw [h6 k h hlt] at hke
    simp at hke
  refine ⟨hlast.symm, ?_, ?_⟩
  · rw [← h7 k h hlast, hke]
  · rw [hlast, List.take_length]
    exact h5

/-- Witness of C21: export of 8193 written bytes into a writer that fails on
its second call. -/
theorem C21_export_stops_at_first_failure_witness :
    ∃ (cs : List WriteCall) (ws' : Nat) (cnt : Int) (err : Option Error),
      Block.WriteTo bigState (tracing flakyWriter) (0, []) =
        (bigState, (ws', cs), .ret (cnt, err)) ∧
      Block.WriteTo bigState flakyWriter 0 = (bigState, ws', .ret (cnt, err)) ∧
      1 ≤ cs.length ∧ cs.length ≤ (bigBlock.n + 4095) / 4096 ∧
      cnt = (cs.map WriteCall.n).sum ∧
      (∀ (i : Nat) (h : i < cs.length), i + 1 < cs.length → (cs[i]).err = none) ∧
      (∀ (i : Nat) (h : i < cs.length), i + 1 = cs.length → (cs[i]).err = err) ∧
      (∀ (i : Nat) (h : i < cs.length),
        (cs[i]).arg =
          readMem bigState.mem (bigBlock.v + 4096 * i) (min 4096 (bigBlock.n - 4096 * i))) ∧
      (err = none → cs.length = (bigBlock.n + 4095) / 4096) ∧
      (∀ (k : Nat) (e : Error) (h : k < cs.length), (cs[k]).err = some e →
        cs.length = k + 1 ∧ err = some e ∧ cnt = ((cs.take (k + 1)).map WriteCall.n).sum) ∧
      ((∀ (ws : Nat) (p : List Byte),
          0 ≤ (flakyWriter.Write ws p).2.1 ∧ (flakyWriter.Write ws p).2.1 ≤ (p.length : Int)) →
        0 ≤ cnt ∧ cnt ≤ (bigBlock.n : Int)) :=
  C21_export_stops_at_first_failure bigState bigBlock flakyWriter 0 rfl rfl (by decide)

/-! ### Consecutive writes -/

theorem memmoveTo_zero (mem : Mem) (dst : Nat) (src : List Byte) :
    memmoveTo mem dst src 0 = mem := by
  funext a
  have h : ¬ (dst ≤ a ∧ a < dst + 0) := by omega
  simp only [memmoveTo, h, if_false]

/-- Storing `p` and then `q` right behind it is storing `p ++ q`. -/
theorem memmoveTo_append (mem : Mem) (dst : Nat) (p q : List Byte) :
    memmoveTo (memmoveTo mem dst p p.length) (dst + p.length) q q.length =
      memmoveTo mem dst (p ++ q) (p.length + q.length) := by
  funext a
  by_cases hq : dst + p.length ≤ a ∧ a < dst + p.length + q.length
  · have h1 : dst ≤ a ∧ a < dst + (p.length + q.length) := by omega
    have h2 : a - dst - p.length = a - (dst + p.length) := by omega
    simp only [memmoveTo, hq, h1, and_self, if_true]
    rw [List.getD_append_right p q 0 (a - dst) (by omega), h2]
  · by_cases hp : dst ≤ a ∧ a < dst + p.length
    · have h1 : dst ≤ a ∧ a < dst + (p.length + q.length) := by omega
      simp only [memmoveTo, hq, hp, h1, and_self, if_true, if_false]
      rw [List.getD_append p q 0 (a - dst) (by omega)]
    · have h1 : ¬ (dst ≤ a ∧ a < dst + (p.length + q.length)) := by omega
      simp only [memmoveTo, hq, hp, h1, if_false]

/-- A `Write` that fits, the empty slice included: the bytes are stored at the
write position and the written count grows by their number. -/
theorem Block.Write_fits (s : State) (b : Block) (p : List Byte)
    (hb : s.blk = some b) (hv : b.v ≠ 0) (hx : b.x = false)
    (hfit : (p.length : Int) ≤ (b.c : Int) - (b.n : Int)) :
    Block.Write s p =
      ({ s with
          mem := memmoveTo s.mem (b.v + b.n) p p.length
          blk := some { b with n := b.n + p.length } },
        .ret ((p.length : Int), none)) := by
  by_cases hp : p.length = 0
  · have hnil : p = [] := List.length_eq_zero.mp hp
    subst hnil
    obtain ⟨blk, mem, tr⟩ := s
    simp only at hb
    subst hb
    obtain ⟨bv, bn, bc, bx⟩ := b
    simp only at hx
    subst hx
    simp [Block.Write, memmoveTo_zero]
  · have hle : ¬ ((p.length : Int) > (b.c : Int) - (b.n : Int)) := by omega
    rw [Block.Write_eq s b p hb hv hx hp, if_neg hle]

/-- Writing the slices of `pieces` one after the other, when all of them fit,
gives each time the length of the slice and no error, and ends in the state of
one `Write` of their concatenation. -/
theorem Block.WriteEach_fits :
    ∀ (pieces : List (List Byte)) (s : State) (b : Block),
      s.blk = some b → b.v ≠ 0 → b.x = false →
      (pieces.flatten.length : Int) ≤ (b.c : Int) - (b.n : Int) →
      Block.WriteEach s pieces =
        ((Block.Write s pieces.flatten).1,
          pieces.map (fun p => Outcome.ret ((p.length : Int), (none : Option Error)))) := by
  intro pieces
  induction pieces with
  | nil =>
    intro s b hb hv hx _
    simp [Block.WriteEach, Block.Write, hb, hx]
  | cons p rest ih =>
    intro s b hb hv hx hfit
    have hlen : (p :: rest).flatten.length = p.length + rest.flatten.length := by simp
    have hp : (p.length : Int) ≤ (b.c : Int) - (b.n : Int) := by omega
    have h1 := Block.Write_fits s b p hb hv hx hp
    have hrest := ih
      { s with
          mem := memmoveTo s.mem (b.v + b.n) p p.length
          blk := some { b with n := b.n + p.length } }
      { b with n := b.n + p.length } rfl hv hx (by simp only [Nat.cast_add]; omega)
    have h2 := Block.Write_fits
      { s with
          mem := memmoveTo s.mem (b.v + b.n) p p.length
          blk := some { b with n := b.n + p.length } }
      { b with n := b.n + p.length } rest.flatten rfl hv hx
      (by simp only [Nat.cast_add]; omega)
    have h3 := Block.Write_fits s b (p ++ rest.flatten) hb hv hx
      (by rw [List.length_append]; omega)
    simp only [Block.WriteEach, h1, hrest, h2, List.flatten_cons, h3, List.map_cons,
      List.length_append]
    rw [← Nat.add_assoc b.v b.n p.length, memmoveTo_append, Nat.add_assoc b.n]

theorem flatten_length_of_equal (pieces : List (List Byte)) (m : Nat)
    (h : ∀ p ∈ pieces, p.length = m) : pieces.flatten.length = pieces.length * m := by
  induction pieces with
  | nil => simp
  | cons p rest ih =>
    have hp : p.length = m := h p (List.mem_cons_self _ _)
    have hr := ih (fun q hq => h q (List.mem_cons_of_mem _ hq))
    simp only [List.flatten_cons, List.length_append, List.length_cons, hp, hr]
    ring

/-- C22. Consecutive writes append: for every valid, non-executable block and
byte slices `p` and `q` with `len(p) + len(q) ≤ Available()`, `Write(p)` followed
by `Write(q)` returns `(len(p), nil)` and `(len(q), nil)` and leaves exactly the
state that a single `Write(p ++ q)` produces (same block, same memory), with
`Len()` grown by `len(p) + len(q)`. By induction, writing any list of slices
that fit together one after the other returns each time the length of the
slice and ends in the state of one `Write` of their concatenation; for `k`
pieces of equal length `m` every call returns `(m, nil)` and the total written
is the length `k * m` of the buffer. -/
theorem C22_consecutive_writes_append (s : State) (b : Block) (p q : List Byte)
    (pieces : List (List Byte)) (a : Int)
    (hb : s.blk = some b) (hv : Block.IsValid s.blk = true) (hx : b.x = false)
    (ha : Block.Available s.blk = .ret a) :
    ((p.length : Int) + (q.length : Int) ≤ a →
      (Block.Write s p).2 = .ret ((p.length : Int), none) ∧
      (Block.Write (Block.Write s p).1 q).2 = .ret ((q.length : Int), none) ∧
      (Block.Write (Block.Write s p).1 q).1 = (Block.Write s (p ++ q)).1 ∧
      Block.Len (Block.Write (Block.Write s p).1 q).1.blk =
        .ret ((b.n : Int) + ((p.length : Int) + (q.length : Int)))) ∧
    ((pieces.flatten.length : Int) ≤ a →
      Block.WriteEach s pieces =
        ((Block.Write s pieces.flatten).1,
          pieces.map (fun r => Outcome.ret ((r.length : Int), (none : Option Error)))) ∧
      Block.Len (Block.WriteEach s pieces).1.blk =
        .ret ((b.n : Int) + (pieces.flatten.length : Int)) ∧
      (∀ m : Nat, (∀ r ∈ pieces, r.length = m) →
        (Block.WriteEach s pieces).2 =
          List.replicate pieces.length (Outcome.ret ((m : Int), (none : Option Error))) ∧
        pieces.flatten.length = pieces.length * m)) := by
  have hv' : b.v ≠ 0 := by simpa [hb, Block.IsValid] using hv
  have ha' : a = (b.c : Int) - (b.n : Int) := by
    simp [hb, Block.Available, Block.IsValid, hv'] at ha
    exact ha.symm
  constructor
  · intro hfit
    have h1 := Block.Write_fits s b p hb hv' hx (by omega)
    have h2 := Block.Write_fits
      { s with
          mem := memmoveTo s.mem (b.v + b.n) p p.length
          blk := some { b with n := b.n + p.length } }
      { b with n := b.n + p.length } q rfl hv' hx (by simp only [Nat.cast_add]; omega)
    have h3 := Block.Write_fits s b (p ++ q) hb hv' hx
      (by rw [List.length_append]; simp only [Nat.cast_add]; omega)
    rw [h1, h2, h3]
    refine ⟨rfl, rfl, ?_, ?_⟩
    · simp only [List.length_append]
      rw [← Nat.add_assoc b.v b.n p.length, memmoveTo_append, Nat.add_assoc b.n]
    · simp [Block.Len, Block.IsValid, hv']
      omega
  · intro hfit
    have hall := Block.WriteEach_fits pieces s b hb hv' hx (by omega)
    have hw := Block.Write_fits s b pieces.flatten hb hv' hx (by omega)
    refine ⟨hall, ?_, ?_⟩
    · rw [hall, hw]
      simp [Block.Len, Block.IsValid, hv']
    · intro m hm
      refine ⟨?_, flatten_length_of_equal pieces m hm⟩
      rw [hall]
      apply List.eq_replicate_iff.mpr
      refine ⟨by simp, ?_⟩
      intro r hr
      obtain ⟨piece, hmem, rfl⟩ := List.mem_map.mp hr
      rw [hm piece hmem]

/-- Witness of C22: `[1, 2]` then `[3]`, and two pieces of two bytes, into the
fresh one-page block. -/
theorem C22_consecutive_writes_append_witness :
    ((Block.Write freshState [1, 2]).2 = .ret (2, none) ∧
      (Block.Write (Block.Write freshState [1, 2]).1 [3]).2 = .ret (1, none) ∧
      (Block.Write (Block.Write freshState [1, 2]).1 [3]).1 =
        (Block.Write freshState ([1, 2] ++ [3])).1 ∧
      Block.Len (Block.Write (Block.Write freshState [1, 2]).1 [3]).1.blk = .ret 3) ∧
    (Block.WriteEach freshState [[1, 2], [3, 4]]).2 =
      List.replicate 2 (Outcome.ret ((2 : Int), (none : Option Error))) ∧
    Block.Len (Block.WriteEach freshState [[1, 2], [3, 4]]).1.blk = .ret 4 :=
  ⟨(C22_consecutive_writes_append freshState freshBlock [1, 2] [3] [] 4096
      rfl rfl rfl rfl).1 (by decide),
    ((C22_consecutive_writes_append freshState freshBlock [] [] [[1, 2], [3, 4]] 4096
      rfl rfl rfl rfl).2 (by decide)).2.2 2 (by decide) |>.1,
    ((C22_consecutive_writes_append freshState freshBlock [] [] [[1, 2], [3, 4]] 4096
      rfl rfl rfl rfl).2 (by decide)).2.1⟩

theorem flakyWriter_Write (k : Nat) (p : List Byte) :
    flakyWriter.Write k p =
      (k + 1, if k = 0 then (p.length : Int) else 10,
        if k = 0 then none else some (Error.other 5)) := rfl

/-- The code at a concrete input: 8193 written bytes exported into the writer
that fails on its second call. The first page is delivered, the second call
reports ten bytes and the error, and `WriteTo` returns `(4096 + 10, error)` after
two calls, without a call for the last byte. -/
theorem Block.WriteTo_flakyWriter :
    (Block.WriteTo bigState flakyWriter 0).2 = (2, .ret (4106, some (Error.other 5))) := by
  have hlen : Block.Len (some bigBlock) = .ret 8193 := by decide
  have hb : bigState.blk = some bigBlock := rfl
  have hn : ¬ ((8193 : Int).toNat ≤ WriteTo.ps) := by decide
  simp only [Block.WriteTo, hlen, hb, hn, if_false]
  rw [WriteTo.loop]
  have h1 : (8193 : Int).toNat - 0 > WriteTo.ps := by decide
  simp only [h1, if_true, flakyWriter_Write]
  rw [WriteTo.loop]
  have h2 : (8193 : Int).toNat - (0 + WriteTo.ps) > WriteTo.ps := by decide
  simp only [h2, if_true, flakyWriter_Write]
  have hl : ∀ (p : List Byte) (mem : Mem) (a : Nat), p.length = WriteTo.ps →
      ((memmoveFrom p mem a WriteTo.ps).length : Int) = 4096 := by
    intro p mem a hp
    rw [memmoveFrom_length p mem a WriteTo.ps (le_of_eq hp.symm), hp]
    rfl
  have hmk : (make WriteTo.ps).length = WriteTo.ps := by simp [make]
  have hmk2 : ∀ (mem : Mem) (a : Nat),
      (memmoveFrom (make WriteTo.ps) mem a WriteTo.ps).length = WriteTo.ps := by
    intro mem a
    rw [memmoveFrom_length _ mem a WriteTo.ps (le_of_eq hmk.symm), hmk]
  simp only [hl _ _ _ hmk, hl _ _ _ (hmk2 _ _)]
  simp

end unsafewx
